import Mathlib

/-!
Verification of the UTM-builder bot (`main.go`).

The Go program is shallowly embedded.  Go strings are modelled as lists of
Unicode scalar values (`Str := List Char`); Go's `net/url` library functions
used by the program (`url.Parse`, `URL.Query`, `Values.Set`, `Values.Encode`,
`URL.String`, `url.ParseQuery`, `url.QueryEscape`, `url.QueryUnescape`) are
modelled byte-faithfully where the program's behaviour depends on them, with
the following documented simplifications, none of which affects the claims:
  * percent-escapes inside the path / host / fragment are kept verbatim
    instead of being decoded and re-encoded (Go decodes and re-encodes them;
    both treatments emit the same string for every URL appearing in a claim,
    and both are stable under re-parsing);
  * the userinfo part of an authority is kept inside the `host` field and the
    authority is not validated (Go validates ports and escapes; Go is
    stricter, so the model only accepts more source URLs than Go does);
  * query unescaping requires the decoded bytes to be valid UTF-8 (Go strings
    may hold arbitrary bytes); a pair whose bytes are not valid UTF-8 is
    dropped by `Query()` in the model, while Go keeps it — in both treatments
    re-assembly is stable, which is all the claims use;
  * `strings.ToLower` (Unicode simple case folding) is given explicitly on
    the letters this program's tables and scheme handling touch (ASCII and
    the six Turkish letters of `replaceTurkishChars`) and is the identity
    elsewhere; the Unicode simple lowercase map agrees with this table on
    those letters (in particular U+0130 maps to U+0069) and is itself
    idempotent and space-free, so no claim's truth value changes.
-/

/-- Go strings, modelled as lists of runes (Unicode scalar values). -/
abbrev Str := List Char

/-- Literal helper: the rune list of a Lean string literal. -/
def str (s : String) : Str := s.data

/-- The table of `unicode.ToLower` (Unicode simple case mapping) restricted to
the letters relevant to this program: ASCII `A`–`Z` and the uppercase letters
of the `replaceTurkishChars` table.  `strings.ToLower` maps every other rune
appearing in this development to itself. -/
def lowerTable : List (Char × Char) :=
  [('A', 'a'), ('B', 'b'), ('C', 'c'), ('D', 'd'), ('E', 'e'), ('F', 'f'),
   ('G', 'g'), ('H', 'h'), ('I', 'i'), ('J', 'j'), ('K', 'k'), ('L', 'l'),
   ('M', 'm'), ('N', 'n'), ('O', 'o'), ('P', 'p'), ('Q', 'q'), ('R', 'r'),
   ('S', 's'), ('T', 't'), ('U', 'u'), ('V', 'v'), ('W', 'w'), ('X', 'x'),
   ('Y', 'y'), ('Z', 'z'),
   ('Ş', 'ş'), ('İ', 'i'), ('Ğ', 'ğ'), ('Ü', 'ü'), ('Ö', 'ö'), ('Ç', 'ç')]

/-- One rune of `strings.ToLower`. -/
def goToLowerChar (c : Char) : Char :=
  match lowerTable.find? (fun p => p.1 = c) with
  | some p => p.2
  | none => c

/-- `strings.ToLower` (model; see the header comment). -/
def goToLower (s : Str) : Str := s.map goToLowerChar

/-- The replacement table of `replaceTurkishChars` (`main.go:366`),
exactly the Go map literal. -/
def turkishTable : List (Char × Char) :=
  [('ş', 's'), ('Ş', 'S'), ('ı', 'i'), ('İ', 'I'), ('ğ', 'g'), ('Ğ', 'G'),
   ('ü', 'u'), ('Ü', 'U'), ('ö', 'o'), ('Ö', 'O'), ('ç', 'c'), ('Ç', 'C')]

/-- One rune of `replaceTurkishChars`: the map lookup in the Go loop. -/
def replaceTurkishChar (c : Char) : Char :=
  match turkishTable.find? (fun p => p.1 = c) with
  | some p => p.2
  | none => c

/-- `replaceTurkishChars` (`main.go:365`): per-rune table substitution. -/
def replaceTurkishChars (s : Str) : Str := s.map replaceTurkishChar

/-- One rune of `strings.ReplaceAll(value, " ", "_")`: the pattern is a
single rune, so the substitution is rune-wise. -/
def spaceToUnderscoreChar (c : Char) : Char := if c = ' ' then '_' else c

/-- `sanitizeUTMValue` (`main.go:354`): replace spaces, lowercase,
transliterate. -/
def sanitizeUTMValue (value : Str) : Str :=
  replaceTurkishChars (goToLower (value.map spaceToUnderscoreChar))

/-- The full per-rune action of `sanitizeUTMValue`. -/
def sanitizeChar (c : Char) : Char :=
  replaceTurkishChar (goToLowerChar (spaceToUnderscoreChar c))

theorem sanitizeUTMValue_eq_map (s : Str) :
    sanitizeUTMValue s = s.map sanitizeChar := by
  simp [sanitizeUTMValue, replaceTurkishChars, goToLower, sanitizeChar]

/-- The uppercase domain letters named by the spec's cleanliness property. -/
def upperSix : List Char := ['Ş', 'İ', 'Ğ', 'Ü', 'Ö', 'Ç']

-- Decidable facts about the two concrete tables.

theorem lowerTable_value_not_key :
    ∀ p ∈ lowerTable, lowerTable.find? (fun q => q.1 = p.2) = none := by
  decide

theorem lowerTable_value_not_space : ∀ p ∈ lowerTable, p.2 ≠ ' ' := by
  decide

theorem turkishTable_value_not_key :
    ∀ p ∈ turkishTable, turkishTable.find? (fun q => q.1 = p.2) = none := by
  decide

theorem turkishTable_lowkey_value_not_lowerKey :
    ∀ p ∈ turkishTable, lowerTable.find? (fun q => q.1 = p.1) = none →
      lowerTable.find? (fun q => q.1 = p.2) = none := by
  decide

theorem turkishTable_value_not_space : ∀ p ∈ turkishTable, p.2 ≠ ' ' := by
  decide

theorem upperSix_sub_turkishKey :
    ∀ c ∈ upperSix, (turkishTable.find? (fun q => q.1 = c)).isSome := by
  decide

-- Per-rune structure lemmas.

theorem goToLowerChar_no_lowerKey (x : Char) :
    lowerTable.find? (fun q => q.1 = goToLowerChar x) = none := by
  unfold goToLowerChar
  cases hf : lowerTable.find? (fun p => p.1 = x) with
  | none => simpa using hf
  | some p =>
      have hp : p ∈ lowerTable := List.mem_of_find?_eq_some hf
      simpa using lowerTable_value_not_key p hp

theorem goToLowerChar_of_no_key (z : Char)
    (h : lowerTable.find? (fun q => q.1 = z) = none) : goToLowerChar z = z := by
  unfold goToLowerChar
  rw [h]

theorem replaceTurkishChar_of_no_key (z : Char)
    (h : turkishTable.find? (fun q => q.1 = z) = none) :
    replaceTurkishChar z = z := by
  unfold replaceTurkishChar
  rw [h]

/-- The output of one sanitizer rune is not a `lowerTable` key. -/
theorem sanitizeChar_no_lowerKey (c : Char) :
    lowerTable.find? (fun q => q.1 = sanitizeChar c) = none := by
  unfold sanitizeChar replaceTurkishChar
  cases hf : turkishTable.find? (fun p => p.1 = goToLowerChar (spaceToUnderscoreChar c)) with
  | none =>
      simpa using goToLowerChar_no_lowerKey (spaceToUnderscoreChar c)
  | some p =>
      have hp : p ∈ turkishTable := List.mem_of_find?_eq_some hf
      have hpk : (p.1 = goToLowerChar (spaceToUnderscoreChar c)) := by
        simpa using List.find?_some hf
      have hnk : lowerTable.find? (fun q => q.1 = p.1) = none := by
        rw [hpk]; exact goToLowerChar_no_lowerKey _
      simpa using turkishTable_lowkey_value_not_lowerKey p hp hnk

/-- The output of one sanitizer rune is not a `turkishTable` key. -/
theorem sanitizeChar_no_turkishKey (c : Char) :
    turkishTable.find? (fun q => q.1 = sanitizeChar c) = none := by
  unfold sanitizeChar replaceTurkishChar
  cases hf : turkishTable.find? (fun p => p.1 = goToLowerChar (spaceToUnderscoreChar c)) with
  | none => simpa using hf
  | some p =>
      have hp : p ∈ turkishTable := List.mem_of_find?_eq_some hf
      simpa using turkishTable_value_not_key p hp

theorem sanitizeChar_not_space (c : Char) : sanitizeChar c ≠ ' ' := by
  unfold sanitizeChar replaceTurkishChar
  cases hf : turkishTable.find? (fun p => p.1 = goToLowerChar (spaceToUnderscoreChar c)) with
  | some p =>
      have hp : p ∈ turkishTable := List.mem_of_find?_eq_some hf
      simpa using turkishTable_value_not_space p hp
  | none =>
      simp only []
      unfold goToLowerChar
      cases hg : lowerTable.find? (fun p => p.1 = spaceToUnderscoreChar c) with
      | some q =>
          have hq : q ∈ lowerTable := List.mem_of_find?_eq_some hg
          simpa using lowerTable_value_not_space q hq
      | none =>
          simp only []
          unfold spaceToUnderscoreChar
          split <;> simp_all

theorem sanitizeChar_fix (c : Char) :
    sanitizeChar (sanitizeChar c) = sanitizeChar c := by
  have h1 : spaceToUnderscoreChar (sanitizeChar c) = sanitizeChar c := by
    unfold spaceToUnderscoreChar
    simp [sanitizeChar_not_space c]
  have h2 : goToLowerChar (sanitizeChar c) = sanitizeChar c :=
    goToLowerChar_of_no_key _ (sanitizeChar_no_lowerKey c)
  have h3 : replaceTurkishChar (sanitizeChar c) = sanitizeChar c :=
    replaceTurkishChar_of_no_key _ (sanitizeChar_no_turkishKey c)
  show replaceTurkishChar (goToLowerChar (spaceToUnderscoreChar (sanitizeChar c)))
      = sanitizeChar c
  rw [h1, h2, h3]

theorem sanitizeChar_not_upperSix (c : Char) : sanitizeChar c ∉ upperSix := by
  intro hmem
  have h := upperSix_sub_turkishKey _ hmem
  rw [sanitizeChar_no_turkishKey c] at h
  simp at h

/-- Boolean cleanliness of one output rune (space-free and free of the six
uppercase transliteration-domain letters). -/
def cleanChar (c : Char) : Bool :=
  (c != ' ') && (upperSix.all (fun x => x != c))

theorem cleanChar_of (c : Char) (h1 : c ≠ ' ') (h2 : c ∉ upperSix) :
    cleanChar c = true := by
  unfold cleanChar
  rw [Bool.and_eq_true, List.all_eq_true]
  refine ⟨by simpa using h1, ?_⟩
  intro x hx
  simp only [bne_iff_ne, ne_eq]
  intro hxc
  exact h2 (hxc ▸ hx)

theorem sanitizeUTMValue_nil : sanitizeUTMValue [] = [] := by
  simp only [sanitizeUTMValue_eq_map, List.map_nil]

theorem sanitizeUTMValue_cons (c : Char) (t : Str) :
    sanitizeUTMValue (c :: t) = sanitizeChar c :: sanitizeUTMValue t := by
  simp only [sanitizeUTMValue_eq_map, List.map_cons]

/-- C2: `sanitizeUTMValue` is idempotent, and its output contains no space
and none of the uppercase letters `Ş İ Ğ Ü Ö Ç` of the transliteration
table's domain. -/
theorem sanitize_idempotent_and_clean (s : Str) :
    sanitizeUTMValue (sanitizeUTMValue s) = sanitizeUTMValue s ∧
      (sanitizeUTMValue s).all cleanChar = true := by
  induction s with
  | nil =>
      rw [sanitizeUTMValue_nil, sanitizeUTMValue_nil]
      exact ⟨rfl, rfl⟩
  | cons c t ih =>
      constructor
      · rw [sanitizeUTMValue_cons c t,
          sanitizeUTMValue_cons (sanitizeChar c) (sanitizeUTMValue t),
          sanitizeChar_fix c, ih.1]
      · rw [sanitizeUTMValue_cons c t, List.all_cons, ih.2,
          cleanChar_of _ (sanitizeChar_not_space c) (sanitizeChar_not_upperSix c),
          Bool.and_self]

/-! ## The `net/url` model

`url.Parse`, `URL.String`, `URL.Query`, `url.ParseQuery`, `Values.Set`,
`Values.Encode`, `url.QueryEscape`, `url.QueryUnescape`, transcribed from the
Go standard library as the program uses them (`viaRequest = false`
throughout); see the header comment for the documented simplifications. -/

def isAlphaChar (c : Char) : Bool :=
  (97 ≤ c.toNat && c.toNat ≤ 122) || (65 ≤ c.toNat && c.toNat ≤ 90)

def isDigitChar (c : Char) : Bool := 48 ≤ c.toNat && c.toNat ≤ 57

def isSchemeChar (c : Char) : Bool :=
  isAlphaChar c || isDigitChar c || c = '+' || c = '-' || c = '.'

/-- `stringContainsCTLByte`: a CTL byte is `< 0x20` or `= 0x7F`; multi-byte
UTF-8 sequences contain no such byte, so the rune-level check is equivalent. -/
def isCTLChar (c : Char) : Bool := c.toNat < 32 || c.toNat = 127

def ctlFree (s : Str) : Bool := s.all (fun c => !isCTLChar c)

/-- `strings.Cut(s, string(c))`: the part before the first `c` and the part
after it (empty when `c` does not occur, like Go's `after`). -/
def cutAtChar (c : Char) : Str → Str × Str
  | [] => ([], [])
  | x :: xs =>
      if x = c then ([], xs)
      else (x :: (cutAtChar c xs).1, (cutAtChar c xs).2)

def headIs (c : Char) : Str → Bool
  | [] => false
  | x :: _ => x = c

/-- `strings.HasPrefix(s, "//")`. -/
def twoSlash (s : Str) : Bool := headIs '/' s && headIs '/' (s.drop 1)

/-- `strings.HasPrefix(s, "///")`. -/
def threeSlash (s : Str) : Bool := twoSlash s && headIs '/' (s.drop 2)

/-- `getScheme`: an alpha-initial run of scheme characters terminated by `:`
is the (lowercased) scheme; a leading `:` is an error; otherwise there is no
scheme and the input is returned whole. -/
def getScheme (s : Str) : Option (Str × Str) :=
  match s with
  | [] => some ([], [])
  | c :: _ =>
      if isAlphaChar c then
        match s.dropWhile isSchemeChar with
        | ':' :: r => some (goToLower (s.takeWhile isSchemeChar), r)
        | _ => some ([], s)
      else if c = ':' then none
      else some ([], s)

/-- The record underlying `url.URL` as this program exercises it
(`User` is folded into `host`, escaped forms are kept verbatim). -/
structure GoURL where
  scheme : Str := []
  opq : Str := []
  host : Str := []
  omitHost : Bool := false
  forceQuery : Bool := false
  path : Str := []
  rawQuery : Str := []
  fragment : Str := []
  deriving Repr, DecidableEq

/-- The `rest, url.RawQuery` split of `parse`: a lone trailing `?` sets
`ForceQuery`, otherwise cut at the first `?`. -/
def hasForceQuery (rest0 : Str) : Bool :=
  (rest0.getLast? == some '?') && !(rest0.dropLast.contains '?')

def splitQuery (rest0 : Str) : Str × Str × Bool :=
  if hasForceQuery rest0 then (rest0.dropLast, [], true)
  else ((cutAtChar '?' rest0).1, (cutAtChar '?' rest0).2, false)

/-- The tail of `parse` after scheme and query extraction: opaque part,
authority, `OmitHost`, and the first-path-segment colon check. -/
def parseAfterQuery (sch : Str) (fq : Bool) (rq rest : Str) : Option GoURL :=
  if ¬headIs '/' rest then
    if sch ≠ [] then
      some {scheme := sch, opq := rest, rawQuery := rq, forceQuery := fq}
    else if ((cutAtChar '/' rest).1).contains ':' then none
    else some {path := rest, rawQuery := rq, forceQuery := fq}
  else
    if (sch ≠ [] || !threeSlash rest) && twoSlash rest then
      let r2 := rest.drop 2
      let auth := r2.takeWhile (fun c => c ≠ '/')
      let rest' := r2.dropWhile (fun c => c ≠ '/')
      some {scheme := sch, host := auth, path := rest', rawQuery := rq,
            forceQuery := fq}
    else
      some {scheme := sch, omitHost := sch ≠ [], path := rest, rawQuery := rq,
            forceQuery := fq}

/-- `parse(rawURL, false)` on the pre-fragment part. -/
def parseNoFrag (s : Str) : Option GoURL :=
  if ¬ctlFree s then none
  else if s = ['*'] then some {path := ['*']}
  else
    match getScheme s with
    | none => none
    | some (sch, rest0) =>
        match splitQuery rest0 with
        | (rest, rq, fq) => parseAfterQuery sch fq rq rest

/-- `url.Parse`: cut the fragment at the first `#`, parse the rest.
(`setFragment` stores the fragment; the model keeps it verbatim.) -/
def parseURL (rawURL : Str) : Option GoURL :=
  match parseNoFrag (cutAtChar '#' rawURL).1 with
  | none => none
  | some u => some {u with fragment := (cutAtChar '#' rawURL).2}

/-- `URL.String()` (with `User = nil`; escaped forms kept verbatim). -/
def urlToString (u : GoURL) : Str :=
  let schemePart : Str := if u.scheme ≠ [] then u.scheme ++ [':'] else []
  let mainPart : Str :=
    if u.opq ≠ [] then u.opq
    else
      let hostPart : Str :=
        if u.scheme ≠ [] ∨ u.host ≠ [] then
          if u.omitHost ∧ u.host = [] then []
          else (if u.host ≠ [] ∨ u.path ≠ [] then str "//" else []) ++ u.host
        else []
      let slashPart : Str :=
        if u.path ≠ [] ∧ ¬headIs '/' u.path ∧ u.host ≠ [] then ['/'] else []
      let dotPart : Str :=
        if schemePart = [] ∧ hostPart = [] ∧ slashPart = [] ∧
            ((cutAtChar '/' u.path).1).contains ':' then str "./"
        else []
      hostPart ++ slashPart ++ dotPart ++ u.path
  schemePart ++ mainPart ++
    (if u.forceQuery ∨ u.rawQuery ≠ [] then '?' :: u.rawQuery else []) ++
    (if u.fragment ≠ [] then '#' :: u.fragment else [])

/-- `isValidURL` (`main.go:345`): parse succeeds and the scheme is
`http` or `https`. -/
def isValidURL (text : Str) : Bool :=
  match parseURL text with
  | none => false
  | some u => u.scheme == str "http" || u.scheme == str "https"

/-! ### Query escaping (`url.QueryEscape` / `url.QueryUnescape`),
byte-level on the UTF-8 encoding. -/

/-- UTF-8 bytes of one rune. -/
def charUtf8 (c : Char) : List Nat :=
  if c.toNat < 128 then [c.toNat]
  else if c.toNat < 2048 then [192 + c.toNat / 64, 128 + c.toNat % 64]
  else if c.toNat < 65536 then
    [224 + c.toNat / 4096, 128 + c.toNat / 64 % 64, 128 + c.toNat % 64]
  else
    [240 + c.toNat / 262144, 128 + c.toNat / 4096 % 64,
     128 + c.toNat / 64 % 64, 128 + c.toNat % 64]

def utf8Bytes (s : Str) : List Nat := s.flatMap charUtf8

/-- Whether a byte is a UTF-8 continuation byte. -/
def contByte (b : Nat) : Bool := 128 ≤ b && b < 192

/-- UTF-8 decoding of a byte list (strict: rejects malformed, overlong,
surrogate and out-of-range sequences), as a streaming scanner.  The state is
`none` before a sequence and `some (acc, k, minV)` inside one: scalar bits so
far, continuation bytes still expected, and the smallest scalar the sequence
length may encode (the overlong bound). -/
def utf8Run : Option (Nat × Nat × Nat) → List Nat → Option Str
  | none, [] => some []
  | some _, [] => none
  | none, b :: bs =>
      if b < 128 then (utf8Run none bs).map (fun t => Char.ofNat b :: t)
      else if b < 192 then none
      else if b < 224 then utf8Run (some (b - 192, 1, 128)) bs
      else if b < 240 then utf8Run (some (b - 224, 2, 2048)) bs
      else utf8Run (some (b - 240, 3, 65536)) bs
  | some (acc, k, minV), b :: bs =>
      if contByte b then
        if k = 1 then
          if minV ≤ acc * 64 + (b - 128) ∧ acc * 64 + (b - 128) < 1114112 ∧
              ¬(55296 ≤ acc * 64 + (b - 128) ∧ acc * 64 + (b - 128) < 57344)
          then
            (utf8Run none bs).map
              (fun t => Char.ofNat (acc * 64 + (b - 128)) :: t)
          else none
        else utf8Run (some (acc * 64 + (b - 128), k - 1, minV)) bs
      else none

def utf8Decode (bs : List Nat) : Option Str := utf8Run none bs

/-- The bytes `shouldEscape` leaves alone in a query component:
alphanumerics and `-_.~`. -/
def isUnresByte (b : Nat) : Bool :=
  (48 ≤ b && b ≤ 57) || (65 ≤ b && b ≤ 90) || (97 ≤ b && b ≤ 122) ||
    b = 45 || b = 95 || b = 46 || b = 126

/-- `"0123456789ABCDEF"[n]`. -/
def upperHexDigit (n : Nat) : Nat := if n < 10 then 48 + n else 55 + n

/-- One byte of `QueryEscape`: keep, `' '` to `'+'`, or `%XX`. -/
def escapeByte (b : Nat) : List Nat :=
  if isUnresByte b then [b]
  else if b = 32 then [43]
  else [37, upperHexDigit (b / 16), upperHexDigit (b % 16)]

def asciiStr (bs : List Nat) : Str := bs.map Char.ofNat

def queryEscape (s : Str) : Str := asciiStr ((utf8Bytes s).flatMap escapeByte)

/-- `unhex` of one hex digit byte. -/
def hexVal (b : Nat) : Option Nat :=
  if 48 ≤ b && b ≤ 57 then some (b - 48)
  else if 97 ≤ b && b ≤ 102 then some (b - 87)
  else if 65 ≤ b && b ≤ 70 then some (b - 55)
  else none

/-- The byte scan of `unescape(s, encodeQueryComponent)`:
`%XX` to a byte (error when malformed), `+` to space, others kept; written as
a streaming scanner whose state holds the pending `%`-digits (`none` =
normal, `some none` = just after `%`, `some (some h)` = after one digit). -/
def pctRun : Option (Option Nat) → List Nat → Option (List Nat)
  | none, [] => some []
  | some _, [] => none
  | none, b :: bs =>
      if b = 37 then pctRun (some none) bs
      else if b = 43 then (pctRun none bs).map (fun t => 32 :: t)
      else (pctRun none bs).map (fun t => b :: t)
  | some none, b :: bs =>
      match hexVal b with
      | some hx => pctRun (some (some hx)) bs
      | none => none
  | some (some hx), b :: bs =>
      match hexVal b with
      | some hy => (pctRun none bs).map (fun t => (hx * 16 + hy) :: t)
      | none => none

def percentDecode (bs : List Nat) : Option (List Nat) := pctRun none bs

/-- `url.QueryUnescape` (model: the decoded bytes must be valid UTF-8). -/
def queryUnescape (s : Str) : Option Str :=
  match percentDecode (utf8Bytes s) with
  | none => none
  | some bs => utf8Decode bs

/-! ### `url.Values` (flat multimap representation: the pair list in query
order; `Encode` sorts stably by key, which matches Go's sorted-unique-keys /
per-key-slice-order iteration). -/

abbrev QPairs := List (Str × Str)

/-- `strings.SplitSeq`-style split used to mirror the `strings.Cut` loop of
`parseQuery`; empty pieces are skipped by `processPiece`. -/
def consHead (x : Char) : List Str → List Str
  | [] => [[x]]
  | h :: t => (x :: h) :: t

def splitOnChar (c : Char) : Str → List Str
  | [] => [[]]
  | x :: xs =>
      if x = c then [] :: splitOnChar c xs
      else consHead x (splitOnChar c xs)

/-- One iteration of the `parseQuery` loop: skip empty pieces and pieces
containing `;`, cut at the first `=`, unescape both sides, skip on error. -/
def processPiece (piece : Str) : Option (Str × Str) :=
  if piece = [] then none
  else if piece.contains ';' then none
  else
    match queryUnescape (cutAtChar '=' piece).1,
        queryUnescape (cutAtChar '=' piece).2 with
    | some k, some v => some (k, v)
    | _, _ => none

/-- `URL.Query()` = `ParseQuery` with the error discarded: the surviving
key/value pairs in query order. -/
def parseQueryList (s : Str) : QPairs :=
  (splitOnChar '&' s).filterMap processPiece

/-- `Values.Set(key, value)`: drop all pairs of the key, bind the single
value (the position the pair takes in the flat list is irrelevant to
`Encode`, which sorts by key). -/
def setValue (q : QPairs) (k v : Str) : QPairs :=
  (q.filter (fun p => !(p.1 == k))) ++ [(k, v)]

/-- Bytewise (equivalently, by code point, since UTF-8 preserves order)
lexicographic string order used by `slices.Sort` on the keys. -/
def strLe : Str → Str → Bool
  | [], _ => true
  | _ :: _, [] => false
  | x :: xs, y :: ys => if x = y then strLe xs ys else decide (x < y)

/-- Stable insertion by key order (a new pair goes after existing pairs
with the same key). -/
def insertPair (x : Str × Str) : QPairs → QPairs
  | [] => [x]
  | y :: ys => if strLe y.1 x.1 then y :: insertPair x ys else x :: y :: ys

/-- Stable sort by key: Go's `Encode` iterates the sorted distinct keys and,
within a key, the values in append (= query) order. -/
def sortPairs (q : QPairs) : QPairs :=
  q.foldl (fun acc x => insertPair x acc) []

def encPair (p : Str × Str) : Str := queryEscape p.1 ++ '=' :: queryEscape p.2

def joinAmp : List Str → Str
  | [] => []
  | [x] => x
  | x :: y :: t => x ++ '&' :: joinAmp (y :: t)

/-- `Values.Encode()`. -/
def encodeQuery (q : QPairs) : Str := joinAmp ((sortPairs q).map encPair)

/-! ## The session state machine (`main.go`) -/

/-- `UserSession` (`main.go:24`); a fresh one is `{Step: 1}` with Go
zero-value (empty) strings. -/
structure UserSession where
  step : Nat
  sourceURL : Str
  utmSource : Str
  utmMedium : Str
  campaign : Str
  content : Str
  term : Str
  deriving Repr, DecidableEq

def freshSession : UserSession := ⟨1, [], [], [], [], [], []⟩

/-- The five field values `sendFinalURL` reads from the session. -/
structure UTMFields where
  source : Str
  medium : Str
  campaign : Str
  content : Str
  term : Str
  deriving Repr, DecidableEq

def sessionFields (s : UserSession) : UTMFields :=
  ⟨s.utmSource, s.utmMedium, s.campaign, s.content, s.term⟩

/-- The `query.Set` block of `sendFinalURL` (`main.go:301`): set the four
mandatory keys, and `utm_term` only when the term is non-empty. -/
def setUTM (q : QPairs) (f : UTMFields) : QPairs :=
  let q1 := setValue q (str "utm_source") f.source
  let q2 := setValue q1 (str "utm_medium") f.medium
  let q3 := setValue q2 (str "utm_campaign") f.campaign
  let q4 := setValue q3 (str "utm_content") f.content
  if f.term ≠ [] then setValue q4 (str "utm_term") f.term else q4

/-- The URL rewrite of `sendFinalURL`: re-encode the query with the UTM
keys set; everything else is untouched. -/
def assembleStruct (u : GoURL) (f : UTMFields) : GoURL :=
  {u with rawQuery := encodeQuery (setUTM (parseQueryList u.rawQuery) f)}

/-- The link-assembly function of `sendFinalURL` (`main.go:288`): parse the
stored source URL, merge the UTM parameters into its query, re-serialize. -/
def assemble (sourceURL : Str) (f : UTMFields) : Option Str :=
  match parseURL sourceURL with
  | none => none
  | some u => some (urlToString (assembleStruct u f))

/-- Outbound sends, abstracted to which message of `main.go` is sent;
`finalResult` carries the assembled link embedded in the success text. -/
inductive Emit where
  | welcomeMsg
  | buildStart
  | cancelledMsg
  | unknownCmd
  | hintMsg
  | noSessionMsg
  | invalidURLMsg
  | askSource
  | askMedium
  | askCampaign
  | askContent
  | askTerm
  | urlErrorMsg
  | finalResult (finalURL : Str)
  deriving Repr, DecidableEq

/-- `sendFinalURL` (`main.go:288`): on parse success emit the link and
delete the session (`none`); on parse failure emit the error and keep it. -/
def sendFinalURL (s : UserSession) : Option UserSession × List Emit :=
  match assemble s.sourceURL (sessionFields s) with
  | none => (some s, [.urlErrorMsg])
  | some fin => (none, [.finalResult fin])

/-- `handleUserInput` (`main.go:155`): the free-text switch on `Step`. -/
def handleUserInput (text : Str) (s : UserSession) :
    Option UserSession × List Emit :=
  if s.step = 1 then
    if ¬isValidURL text then (some s, [.invalidURLMsg])
    else (some {s with sourceURL := text, step := 2}, [.askSource])
  else if s.step = 4 then
    (some {s with campaign := sanitizeUTMValue text, step := 5}, [.askContent])
  else if s.step = 5 then
    (some {s with content := sanitizeUTMValue text, step := 6}, [.askTerm])
  else if s.step = 6 then
    sendFinalURL
      (if text ≠ [] ∧ goToLower text ≠ str "atla"
       then {s with term := sanitizeUTMValue text} else s)
  else (some s, [])

/-- The `Step` switch of `handleCallback` (`main.go:208`), given that a
session exists. -/
def handleCallbackSession (data : Str) (s : UserSession) :
    Option UserSession × List Emit :=
  if s.step = 2 then (some {s with utmSource := data, step := 3}, [.askMedium])
  else if s.step = 3 then
    (some {s with utmMedium := data, step := 4}, [.askCampaign])
  else if s.step = 6 then
    if data = str "skip_term" then sendFinalURL s else (some s, [])
  else (some s, [])

/-- Inbound events, pre-classified as the Telegram library delivers them:
a command (name without the slash), a plain message, or a callback query. -/
inductive Event where
  | command (name : Str)
  | message (text : Str)
  | callback (data : Str)
  deriving Repr, DecidableEq

/-- The `sessions` map, projected to one value per user id. -/
abbrev SessionMap := Int → Option UserSession

def setSession (m : SessionMap) (uid : Int) (s? : Option UserSession) :
    SessionMap :=
  fun k => if k = uid then s? else m k

/-- One turn of the update loop (`handleMessage` / `handleCallback`):
command dispatch, and session lookup for text and callbacks. -/
def processEvent (m : SessionMap) (uid : Int) (e : Event) :
    SessionMap × List Emit :=
  match e with
  | .command n =>
      if n = str "start" then (m, [.welcomeMsg])
      else if n = str "build" then
        (setSession m uid (some freshSession), [.buildStart])
      else if n = str "cancel" then (setSession m uid none, [.cancelledMsg])
      else (m, [.unknownCmd])
  | .message t =>
      match m uid with
      | some s =>
          let r := handleUserInput t s
          (setSession m uid r.1, r.2)
      | none => (m, [.hintMsg])
  | .callback d =>
      match m uid with
      | some s =>
          let r := handleCallbackSession d s
          (setSession m uid r.1, r.2)
      | none => (m, [.noSessionMsg])

/-- The update loop over a list of events from one user, collecting all
outbound sends in order. -/
def runEvents (m : SessionMap) (uid : Int) : List Event → SessionMap × List Emit
  | [] => (m, [])
  | e :: es =>
      let r := processEvent m uid e
      let r2 := runEvents r.1 uid es
      (r2.1, r.2 ++ r2.2)

/-- Session-level view of one accepted input (free text or callback) on an
existing session; `none` means the session was deleted. -/
inductive SEvent where
  | text (t : Str)
  | callback (d : Str)
  deriving Repr, DecidableEq

def stepSession (e : SEvent) (s : UserSession) : Option UserSession :=
  match e with
  | .text t => (handleUserInput t s).1
  | .callback d => (handleCallbackSession d s).1

def runSession : List SEvent → UserSession → Option UserSession
  | [], s => some s
  | e :: es, s =>
      match stepSession e s with
      | none => none
      | some s' => runSession es s'

/-- Sessions reachable from `/build` by inputs delivered to that session. -/
inductive ReachS : UserSession → Prop where
  | init : ReachS freshSession
  | next (e : SEvent) (s s' : UserSession) :
      ReachS s → stepSession e s = some s' → ReachS s'

/-! ## Concrete-scenario claims -/

/-- The spec's end-to-end input sequence (C1). -/
def scenarioEvents : List Event :=
  [.command (str "build"),
   .message (str "https://hayratyardim.org/bagis/genel-su-kuyusu/"),
   .callback (str "meta"),
   .callback (str "organic_social"),
   .message (str "Su Kuyusu Genel"),
   .message (str "Test Genel Su Kuyusu"),
   .callback (str "skip_term")]

/-- The link the code actually emits for the scenario: `Values.Encode`
sorts the keys, so `utm_campaign` comes first. -/
def scenarioActual : Str :=
  str "https://hayratyardim.org/bagis/genel-su-kuyusu/?utm_campaign=su_kuyusu_genel&utm_content=test_genel_su_kuyusu&utm_medium=organic_social&utm_source=meta"

/-- The link the spec's C1 sentence writes (source first). -/
def scenarioClaimed : Str :=
  str "https://hayratyardim.org/bagis/genel-su-kuyusu/?utm_source=meta&utm_medium=organic_social&utm_campaign=su_kuyusu_genel&utm_content=test_genel_su_kuyusu"

set_option maxRecDepth 100000 in
/-- C1, counterexample: running the spec's scenario emits a final link, but
it is not the string the claim writes (the canonical `Encode` order is
alphabetical in the keys, so `utm_source=meta` is last, not first). -/
theorem c1_counterexample :
    (runEvents (fun _ => none) 0 scenarioEvents).2 =
      [.buildStart, .askSource, .askMedium, .askCampaign, .askContent,
       .askTerm, .finalResult scenarioActual] ∧
    scenarioActual ≠ scenarioClaimed := by
  exact ⟨by decide, by decide⟩

set_option maxRecDepth 100000 in
/-- C1, amended: the scenario's emitted final link is exactly the
canonically-ordered (sorted-key) string with no `utm_term` key, and no
session exists for the user afterwards. -/
theorem c1_amended :
    (runEvents (fun _ => none) 0 scenarioEvents).2 =
      [.buildStart, .askSource, .askMedium, .askCampaign, .askContent,
       .askTerm, .finalResult scenarioActual] ∧
    (runEvents (fun _ => none) 0 scenarioEvents).1 0 = none := by
  exact ⟨by decide, by decide⟩

/-- The fields of the C3/C4 assembly examples, sanitized as
`handleUserInput` does before `sendFinalURL` reads them. -/
def exampleFields : UTMFields :=
  ⟨str "google", str "cpc", sanitizeUTMValue (str "Su Kuyusu Genel"),
   sanitizeUTMValue (str "Kreatif Ismi"), []⟩

/-- The query string the assembler produces for `exampleFields` over an
empty source query. -/
def exampleQuery : Str :=
  str "utm_campaign=su_kuyusu_genel&utm_content=kreatif_ismi&utm_medium=cpc&utm_source=google"

set_option maxRecDepth 100000 in
/-- C3: for a source URL with no existing query string and the example
fields, the assembled URL's query string consists of exactly the four tag
parameters (no term key) with the sanitized values, and nothing else. -/
theorem c3_assembly_exact (s : Str) (u : GoURL) (hp : parseURL s = some u)
    (hq : u.rawQuery = []) :
    (assembleStruct u exampleFields).rawQuery = exampleQuery ∧
    parseQueryList (assembleStruct u exampleFields).rawQuery =
      [(str "utm_campaign", str "su_kuyusu_genel"),
       (str "utm_content", str "kreatif_ismi"),
       (str "utm_medium", str "cpc"),
       (str "utm_source", str "google")] := by
  have h1 : (assembleStruct u exampleFields).rawQuery =
      encodeQuery (setUTM (parseQueryList []) exampleFields) := by
    simp only [assembleStruct]
    rw [hq]
  rw [h1]
  exact ⟨by decide, by decide⟩

/-- The parse of `https://example.org/p` in the model. -/
def exampleBase : GoURL :=
  ⟨str "https", [], str "example.org", false, false, str "/p", [], []⟩

set_option maxRecDepth 100000 in
theorem c3_assembly_exact_witness :
    parseURL (str "https://example.org/p") = some exampleBase ∧
    exampleBase.rawQuery = [] ∧
    ((assembleStruct exampleBase exampleFields).rawQuery = exampleQuery ∧
      parseQueryList (assembleStruct exampleBase exampleFields).rawQuery =
        [(str "utm_campaign", str "su_kuyusu_genel"),
         (str "utm_content", str "kreatif_ismi"),
         (str "utm_medium", str "cpc"),
         (str "utm_source", str "google")]) :=
  ⟨by decide, rfl,
    c3_assembly_exact (str "https://example.org/p") exampleBase (by decide) rfl⟩

/-- C8: `/build` unconditionally installs a fresh session at step 1 with
every field empty, whatever (if anything) was stored for the user before. -/
theorem c8_build_installs_fresh (m : SessionMap) (uid : Int) :
    (processEvent m uid (.command (str "build"))).1 uid =
      some ⟨1, [], [], [], [], [], []⟩ := by
  show (if str "build" = str "start" then (m, [Emit.welcomeMsg])
    else if str "build" = str "build" then
      (setSession m uid (some freshSession), [Emit.buildStart])
    else if str "build" = str "cancel" then
      (setSession m uid none, [Emit.cancelledMsg])
    else (m, [Emit.unknownCmd])).1 uid = some ⟨1, [], [], [], [], [], []⟩
  rw [if_neg (by decide), if_pos rfl]
  show setSession m uid (some freshSession) uid = some freshSession
  simp [setSession]

/-! ## State-machine analysis -/

theorem assemble_none_iff (src : Str) (f : UTMFields) :
    assemble src f = none ↔ parseURL src = none := by
  unfold assemble
  cases parseURL src <;> simp

/-- Exhaustive characterization of one accepted input on a surviving
session. -/
theorem stepSession_spec (e : SEvent) (s s1 : UserSession)
    (h : stepSession e s = some s1) :
    s1 = s ∨
    (s.step = 1 ∧ ∃ t, e = .text t ∧ isValidURL t = true ∧
      s1 = {s with sourceURL := t, step := 2}) ∨
    (s.step = 2 ∧ ∃ d, e = .callback d ∧
      s1 = {s with utmSource := d, step := 3}) ∨
    (s.step = 3 ∧ ∃ d, e = .callback d ∧
      s1 = {s with utmMedium := d, step := 4}) ∨
    (s.step = 4 ∧ ∃ t, e = .text t ∧
      s1 = {s with campaign := sanitizeUTMValue t, step := 5}) ∨
    (s.step = 5 ∧ ∃ t, e = .text t ∧
      s1 = {s with content := sanitizeUTMValue t, step := 6}) ∨
    (s.step = 6 ∧ parseURL s.sourceURL = none ∧ ∃ t, e = .text t ∧
      s1 = {s with term := sanitizeUTMValue t}) := by
  cases e with
  | text t =>
      simp only [stepSession, handleUserInput] at h
      by_cases h1 : s.step = 1
      · simp only [h1, if_pos] at h
        by_cases hv : isValidURL t
        · simp only [hv, not_true_eq_false, if_neg, if_false,
            reduceCtorEq, not_false_eq_true, if_true] at h
          right; left
          refine ⟨h1, t, rfl, by simpa using hv, ?_⟩
          simp_all
        · simp only [hv] at h
          simp at h
          left
          simp_all
      · simp only [if_neg h1] at h
        by_cases h4 : s.step = 4
        · simp only [h4, if_pos] at h
          simp at h
          right; right; right; right; left
          exact ⟨h4, t, rfl, h.symm⟩
        · simp only [if_neg h4] at h
          by_cases h5 : s.step = 5
          · simp only [h5, if_pos] at h
            simp at h
            right; right; right; right; right; left
            exact ⟨h5, t, rfl, h.symm⟩
          · simp only [if_neg h5] at h
            by_cases h6 : s.step = 6
            · rw [if_pos h6] at h
              by_cases ht : t ≠ [] ∧ goToLower t ≠ str "atla"
              · rw [if_pos ht] at h
                simp only [sendFinalURL] at h
                cases ha : assemble
                    ({s with term := sanitizeUTMValue t} : UserSession).sourceURL
                    (sessionFields {s with term := sanitizeUTMValue t}) with
                | some fin => rw [ha] at h; simp at h
                | none =>
                    rw [ha] at h
                    simp at h
                    have hpn : parseURL s.sourceURL = none :=
                      (assemble_none_iff _ _).mp ha
                    right; right; right; right; right; right
                    exact ⟨h6, hpn, t, rfl, h.symm⟩
              · rw [if_neg ht] at h
                simp only [sendFinalURL] at h
                cases ha : assemble s.sourceURL (sessionFields s) with
                | some fin => rw [ha] at h; simp at h
                | none =>
                    rw [ha] at h
                    simp at h
                    left; exact h.symm
            · simp only [if_neg h6] at h
              simp at h
              left; exact h.symm
  | callback d =>
      simp only [stepSession, handleCallbackSession] at h
      by_cases h2 : s.step = 2
      · simp only [h2, if_pos] at h
        simp at h
        right; right; left
        exact ⟨h2, d, rfl, h.symm⟩
      · simp only [if_neg h2] at h
        by_cases h3 : s.step = 3
        · simp only [h3, if_pos] at h
          simp at h
          right; right; right; left
          exact ⟨h3, d, rfl, h.symm⟩
        · simp only [if_neg h3] at h
          by_cases h6 : s.step = 6
          · simp only [h6, if_pos] at h
            by_cases hd : d = str "skip_term"
            · simp only [hd, if_pos] at h
              simp only [sendFinalURL] at h
              cases ha : assemble s.sourceURL (sessionFields s) with
              | some fin => rw [ha] at h; simp at h
              | none =>
                  rw [ha] at h
                  simp at h
                  left; exact h.symm
            · simp only [if_neg hd] at h
              simp at h
              left; exact h.symm
          · simp only [if_neg h6] at h
            simp at h
            left; exact h.symm

/-- C7: at step 1 (AwaitingSourceURL), free text is accepted exactly when it
parses with scheme `http`/`https`; acceptance stores the text and advances to
step 2 with the source prompt, rejection leaves the session unchanged and
emits the validation error. -/
theorem c7_step1_validation (s : UserSession) (t : Str) (h : s.step = 1) :
    (isValidURL t = true ↔
      ∃ u, parseURL t = some u ∧
        (u.scheme = str "http" ∨ u.scheme = str "https")) ∧
    (isValidURL t = true →
      handleUserInput t s =
        (some {s with sourceURL := t, step := 2}, [.askSource])) ∧
    (isValidURL t = false →
      handleUserInput t s = (some s, [.invalidURLMsg])) := by
  refine ⟨?_, ?_, ?_⟩
  · unfold isValidURL
    cases hp : parseURL t with
    | none => simp
    | some u =>
        simp only [Bool.or_eq_true, beq_iff_eq]
        constructor
        · intro hu
          exact ⟨u, rfl, hu⟩
        · rintro ⟨u', hu', hsch⟩
          injection hu' with hu'
          rw [← hu'] at hsch
          exact hsch
  · intro hv
    simp [handleUserInput, h, hv]
  · intro hv
    simp [handleUserInput, h, hv]

theorem c7_step1_validation_witness :
    freshSession.step = 1 ∧
    ((isValidURL (str "http://a") = true ↔
        ∃ u, parseURL (str "http://a") = some u ∧
          (u.scheme = str "http" ∨ u.scheme = str "https")) ∧
      (isValidURL (str "http://a") = true →
        handleUserInput (str "http://a") freshSession =
          (some {freshSession with sourceURL := str "http://a", step := 2},
           [.askSource])) ∧
      (isValidURL (str "http://a") = false →
        handleUserInput (str "http://a") freshSession =
          (some freshSession, [.invalidURLMsg]))) :=
  ⟨rfl, c7_step1_validation freshSession (str "http://a") rfl⟩

theorem stepSession_mono (e : SEvent) (s s1 : UserSession)
    (h : stepSession e s = some s1) : s.step ≤ s1.step := by
  rcases stepSession_spec e s s1 h with
    rfl | ⟨h', _, _, _, rfl⟩ | ⟨h', _, _, rfl⟩ | ⟨h', _, _, rfl⟩ |
    ⟨h', _, _, rfl⟩ | ⟨h', _, _, rfl⟩ | ⟨h', _, _, _, rfl⟩ <;>
    simp_all <;> omega

/-- C9: over any sequence of inputs delivered to one session, the recorded
step never decreases while the session survives (it is deleted, not rewound,
at completion). -/
theorem c9_step_monotone (es : List SEvent) (s s' : UserSession)
    (h : runSession es s = some s') : s.step ≤ s'.step := by
  induction es generalizing s with
  | nil =>
      simp only [runSession] at h
      injection h with h
      rw [h]
  | cons e es ih =>
      simp only [runSession] at h
      cases hstep : stepSession e s with
      | none => rw [hstep] at h; simp at h
      | some s1 =>
          rw [hstep] at h
          exact Nat.le_trans (stepSession_mono e s s1 hstep) (ih s1 h)

set_option maxRecDepth 100000 in
theorem c9_step_monotone_witness :
    freshSession.step ≤
      (⟨2, str "http://a", [], [], [], [], []⟩ : UserSession).step :=
  c9_step_monotone [.text (str "http://a")] freshSession
    ⟨2, str "http://a", [], [], [], [], []⟩ (by decide)

/-- The step/field invariant maintained by every accepted input: the step
stays in 1..6, the stored source URL of any advanced session passes
`isValidURL`, and fields of not-yet-passed steps are still empty. -/
def SessionInv (s : UserSession) : Prop :=
  1 ≤ s.step ∧ s.step ≤ 6 ∧
  (2 ≤ s.step → isValidURL s.sourceURL = true) ∧
  (s.step ≤ 1 → s.sourceURL = []) ∧
  (s.step ≤ 2 → s.utmSource = []) ∧
  (s.step ≤ 3 → s.utmMedium = []) ∧
  (s.step ≤ 4 → s.campaign = []) ∧
  (s.step ≤ 5 → s.content = []) ∧
  s.term = []

theorem sessionInv_fresh : SessionInv freshSession := by
  refine ⟨by decide, by decide, ?_, ?_, ?_, ?_, ?_, ?_, rfl⟩ <;>
    intro h <;> first | rfl | exact absurd h (by decide)

theorem isValidURL_parse_isSome (t : Str) (h : isValidURL t = true) :
    (parseURL t).isSome := by
  unfold isValidURL at h
  cases hp : parseURL t with
  | none => rw [hp] at h; simp at h
  | some u => rfl

theorem sessionInv_preserved (e : SEvent) (s s1 : UserSession)
    (hs : SessionInv s) (h : stepSession e s = some s1) : SessionInv s1 := by
  obtain ⟨g1, g2, g3, g4, g5, g6, g7, g8, g9⟩ := hs
  rcases stepSession_spec e s s1 h with
    rfl | ⟨h', _, _, hv, rfl⟩ | ⟨h', _, _, rfl⟩ | ⟨h', _, _, rfl⟩ |
    ⟨h', _, _, rfl⟩ | ⟨h', _, _, rfl⟩ | ⟨h', hpn, _, _, rfl⟩
  · exact ⟨g1, g2, g3, g4, g5, g6, g7, g8, g9⟩
  · exact ⟨by simp, by simp, fun _ => by simpa using hv,
      by simp, by simpa [h'] using g5, by simpa [h'] using g6,
      by simpa [h'] using g7, by simpa [h'] using g8, g9⟩
  · exact ⟨by simp, by simp, fun _ => by simpa using g3 (by omega),
      by simp <;> omega, by simp, by simpa [h'] using g6,
      by simpa [h'] using g7, by simpa [h'] using g8, g9⟩
  · exact ⟨by simp, by simp, fun _ => by simpa using g3 (by omega),
      by simp <;> omega, by simp <;> omega, by simp,
      by simpa [h'] using g7, by simpa [h'] using g8, g9⟩
  · exact ⟨by simp, by simp, fun _ => by simpa using g3 (by omega),
      by simp <;> omega, by simp <;> omega, by simp <;> omega,
      by simp, by simpa [h'] using g8, g9⟩
  · exact ⟨by simp, by simp, fun _ => by simpa using g3 (by omega),
      by simp <;> omega, by simp <;> omega, by simp <;> omega,
      by simp <;> omega, by simp, g9⟩
  · -- unreachable: an advanced session's source URL always parses
    exfalso
    have hv := g3 (by omega)
    have := isValidURL_parse_isSome _ hv
    rw [hpn] at this
    simp at this

theorem reachS_invariant (s : UserSession) (h : ReachS s) : SessionInv s := by
  induction h with
  | init => exact sessionInv_fresh
  | next e s s' _ hstep ih => exact sessionInv_preserved e s s' ih hstep

/-- The session the code reaches after a valid URL and an *empty* callback
payload: step 2 has been passed but `utmSource` is empty, because the
callback handler stores any payload verbatim with no validation. -/
def emptySelSession : UserSession := ⟨3, str "http://a", [], [], [], [], []⟩

set_option maxRecDepth 100000 in
/-- C6, counterexample: a session reached by accepted inputs (a valid URL,
then a selection whose payload is the empty string) has passed the
source-selection step yet its `utmSource` field is empty. -/
theorem c6_counterexample :
    runSession [.text (str "http://a"), .callback []] freshSession =
      some emptySelSession ∧
    2 < emptySelSession.step ∧ emptySelSession.utmSource = [] := by
  exact ⟨by decide, by decide, rfl⟩

/-- Inputs whose payload is non-empty (the proviso of the amended C6). -/
def nonEmptyInput : SEvent → Prop
  | .text t => t ≠ []
  | .callback d => d ≠ []

/-- Sessions reachable from `/build` by non-empty accepted inputs. -/
inductive ReachNE : UserSession → Prop where
  | init : ReachNE freshSession
  | next (e : SEvent) (s s' : UserSession) :
      ReachNE s → nonEmptyInput e → stepSession e s = some s' → ReachNE s'

/-- Every passed step's field is populated. -/
def PastFilled (s : UserSession) : Prop :=
  (2 ≤ s.step → s.sourceURL ≠ []) ∧ (3 ≤ s.step → s.utmSource ≠ []) ∧
  (4 ≤ s.step → s.utmMedium ≠ []) ∧ (5 ≤ s.step → s.campaign ≠ []) ∧
  (6 ≤ s.step → s.content ≠ [])

theorem sanitizeUTMValue_ne_nil (t : Str) (h : t ≠ []) :
    sanitizeUTMValue t ≠ [] := by
  cases t with
  | nil => exact absurd rfl h
  | cons c cs =>
      rw [sanitizeUTMValue_eq_map]
      simp

theorem isValidURL_ne_nil (t : Str) (h : isValidURL t = true) : t ≠ [] := by
  intro hnil
  rw [hnil] at h
  exact absurd h (by decide)

theorem reachNE_invariant (s : UserSession) (h : ReachNE s) :
    SessionInv s ∧ PastFilled s := by
  induction h with
  | init =>
      refine ⟨sessionInv_fresh, ?_, ?_, ?_, ?_, ?_⟩ <;>
        intro hh <;> exact absurd hh (by decide)
  | next e s s' hr hne hstep ih =>
      refine ⟨sessionInv_preserved e s s' ih.1 hstep, ?_⟩
      obtain ⟨p1, p2, p3, p4, p5⟩ := ih.2
      rcases stepSession_spec e s s' hstep with
        rfl | ⟨h', t, he, hv, rfl⟩ | ⟨h', d, he, rfl⟩ | ⟨h', d, he, rfl⟩ |
        ⟨h', t, he, rfl⟩ | ⟨h', t, he, rfl⟩ | ⟨h', hpn, t, he, rfl⟩
      · exact ⟨p1, p2, p3, p4, p5⟩
      · exact ⟨fun _ => by simpa using isValidURL_ne_nil t hv,
          fun hh => by simp at hh, fun hh => by simp at hh,
          fun hh => by simp at hh, fun hh => by simp at hh⟩
      · rw [he] at hne
        exact ⟨fun _ => by simpa using p1 (by omega),
          fun _ => by simpa using hne,
          fun hh => by simp at hh, fun hh => by simp at hh,
          fun hh => by simp at hh⟩
      · rw [he] at hne
        exact ⟨fun _ => by simpa using p1 (by omega),
          fun _ => by simpa using p2 (by omega),
          fun _ => by simpa using hne,
          fun hh => by simp at hh, fun hh => by simp at hh⟩
      · rw [he] at hne
        exact ⟨fun _ => by simpa using p1 (by omega),
          fun _ => by simpa using p2 (by omega),
          fun _ => by simpa using p3 (by omega),
          fun _ => by simpa using sanitizeUTMValue_ne_nil t hne,
          fun hh => by simp at hh⟩
      · rw [he] at hne
        exact ⟨fun _ => by simpa using p1 (by omega),
          fun _ => by simpa using p2 (by omega),
          fun _ => by simpa using p3 (by omega),
          fun _ => by simpa using p4 (by omega),
          fun _ => by simpa using sanitizeUTMValue_ne_nil t hne⟩
      · exact ⟨fun hh => by simpa using p1 (by simpa using hh),
          fun hh => by simpa using p2 (by simpa using hh),
          fun hh => by simpa using p3 (by simpa using hh),
          fun hh => by simpa using p4 (by simpa using hh),
          fun hh => by simpa using p5 (by simpa using hh)⟩

/-- C6, amended: in every session reached by accepted inputs, fields of
future steps are empty; and every passed step's field is populated provided
the accepted inputs were non-empty (the code stores empty selections and
empty free text verbatim, so the populated direction needs that proviso). -/
theorem c6_amended_field_iff_passed (s : UserSession) (h : ReachNE s) :
    ((s.step ≤ 1 → s.sourceURL = []) ∧ (s.step ≤ 2 → s.utmSource = []) ∧
     (s.step ≤ 3 → s.utmMedium = []) ∧ (s.step ≤ 4 → s.campaign = []) ∧
     (s.step ≤ 5 → s.content = []) ∧ s.term = []) ∧
    ((2 ≤ s.step → s.sourceURL ≠ []) ∧ (3 ≤ s.step → s.utmSource ≠ []) ∧
     (4 ≤ s.step → s.utmMedium ≠ []) ∧ (5 ≤ s.step → s.campaign ≠ []) ∧
     (6 ≤ s.step → s.content ≠ [])) := by
  obtain ⟨⟨_, _, _, i4, i5, i6, i7, i8, i9⟩, hp⟩ := reachNE_invariant s h
  exact ⟨⟨i4, i5, i6, i7, i8, i9⟩, hp⟩

def step2Session : UserSession := ⟨2, str "http://a", [], [], [], [], []⟩

set_option maxRecDepth 100000 in
theorem c6_amended_field_iff_passed_witness :
    ((step2Session.step ≤ 1 → step2Session.sourceURL = []) ∧
     (step2Session.step ≤ 2 → step2Session.utmSource = []) ∧
     (step2Session.step ≤ 3 → step2Session.utmMedium = []) ∧
     (step2Session.step ≤ 4 → step2Session.campaign = []) ∧
     (step2Session.step ≤ 5 → step2Session.content = []) ∧
     step2Session.term = []) ∧
    ((2 ≤ step2Session.step → step2Session.sourceURL ≠ []) ∧
     (3 ≤ step2Session.step → step2Session.utmSource ≠ []) ∧
     (4 ≤ step2Session.step → step2Session.utmMedium ≠ []) ∧
     (5 ≤ step2Session.step → step2Session.campaign ≠ []) ∧
     (6 ≤ step2Session.step → step2Session.content ≠ [])) :=
  c6_amended_field_iff_passed step2Session
    (.next (.text (str "http://a")) freshSession step2Session .init
      (show str "http://a" ≠ [] by decide) (by decide))

set_option maxRecDepth 100000 in
/-- C10: `isValidURL` acceptance guarantees the finalization parse
succeeds, so the parse-error branch of `sendFinalURL` is unreachable from
reachable sessions, and every term-step completion (free text, or the
skip selection) deletes the session and emits the final link. -/
theorem c10_finalization_never_fails :
    (∀ t, isValidURL t = true → (parseURL t).isSome) ∧
    (∀ s, ReachS s → s.step = 6 →
      (∀ t, ∃ fin, handleUserInput t s = (none, [.finalResult fin])) ∧
      (∃ fin, handleCallbackSession (str "skip_term") s =
        (none, [.finalResult fin]))) := by
  constructor
  · exact fun t ht => isValidURL_parse_isSome t ht
  · intro s hr h6
    have hv : isValidURL s.sourceURL = true :=
      (reachS_invariant s hr).2.2.1 (by omega)
    obtain ⟨u, hu⟩ : ∃ u, parseURL s.sourceURL = some u := by
      cases hp : parseURL s.sourceURL with
      | none =>
          have := isValidURL_parse_isSome _ hv
          rw [hp] at this
          simp at this
      | some u => exact ⟨u, rfl⟩
    constructor
    · intro t
      simp only [handleUserInput]
      rw [if_neg (by omega), if_neg (by omega), if_neg (by omega),
        if_pos h6]
      by_cases ht : t ≠ [] ∧ goToLower t ≠ str "atla"
      · rw [if_pos ht]
        simp only [sendFinalURL]
        have ha : assemble
            ({s with term := sanitizeUTMValue t} : UserSession).sourceURL
            (sessionFields {s with term := sanitizeUTMValue t}) =
            some (urlToString (assembleStruct u
              (sessionFields {s with term := sanitizeUTMValue t}))) := by
          show assemble s.sourceURL _ = _
          unfold assemble
          rw [hu]
        rw [ha]
        exact ⟨_, rfl⟩
      · rw [if_neg ht]
        simp only [sendFinalURL]
        have ha : assemble s.sourceURL (sessionFields s) =
            some (urlToString (assembleStruct u (sessionFields s))) := by
          unfold assemble
          rw [hu]
        rw [ha]
        exact ⟨_, rfl⟩
    · simp only [handleCallbackSession]
      rw [if_neg (by omega), if_neg (by omega), if_pos h6, if_true]
      simp only [sendFinalURL]
      have ha : assemble s.sourceURL (sessionFields s) =
          some (urlToString (assembleStruct u (sessionFields s))) := by
        unfold assemble
        rw [hu]
      rw [ha]
      exact ⟨_, rfl⟩

def step6Session : UserSession :=
  ⟨6, str "http://a", str "x", str "y", str "c", str "d", []⟩

set_option maxRecDepth 100000 in
theorem c10_finalization_never_fails_witness :
    ∃ fin, handleCallbackSession (str "skip_term") step6Session =
      (none, [.finalResult fin]) := by
  have h2 : ReachS ⟨2, str "http://a", [], [], [], [], []⟩ :=
    .next (.text (str "http://a")) _ _ .init (by decide)
  have h3 : ReachS ⟨3, str "http://a", str "x", [], [], [], []⟩ :=
    .next (.callback (str "x")) _ _ h2 (by decide)
  have h4 : ReachS ⟨4, str "http://a", str "x", str "y", [], [], []⟩ :=
    .next (.callback (str "y")) _ _ h3 (by decide)
  have h5 : ReachS ⟨5, str "http://a", str "x", str "y", str "c", [], []⟩ :=
    .next (.text (str "c")) _ _ h4 (by decide)
  have h6 : ReachS step6Session :=
    .next (.text (str "d")) _ _ h5 (by decide)
  exact (c10_finalization_never_fails.2 step6Session h6 rfl).2


/-! ## Escape round-trip: `QueryUnescape (QueryEscape s) = s`. -/

theorem char_valid_nat (c : Char) :
    c.toNat < 55296 ∨ (57344 ≤ c.toNat ∧ c.toNat < 1114112) := by
  rcases c.valid with h | ⟨h1, h2⟩
  · left; exact h
  · right; exact ⟨h1, h2⟩

theorem charToNat_ofNat (n : Nat) (h : n.isValidChar) :
    (Char.ofNat n).toNat = n := by
  simp only [Char.ofNat, h, dite_true, Char.ofNatAux, Char.toNat]
  rfl

theorem charUtf8_lt_256 (c : Char) : ∀ b ∈ charUtf8 c, b < 256 := by
  intro b hb
  have hv := char_valid_nat c
  unfold charUtf8 at hb
  by_cases h1 : c.toNat < 128
  · rw [if_pos h1] at hb
    simp at hb
    omega
  · rw [if_neg h1] at hb
    by_cases h2 : c.toNat < 2048
    · rw [if_pos h2] at hb
      simp at hb
      rcases hb with rfl | rfl <;> omega
    · rw [if_neg h2] at hb
      by_cases h3 : c.toNat < 65536
      · rw [if_pos h3] at hb
        simp at hb
        rcases hb with rfl | rfl | rfl <;> omega
      · rw [if_neg h3] at hb
        simp at hb
        rcases hb with rfl | rfl | rfl | rfl <;> omega

theorem contByte_true (b : Nat) (h1 : 128 ≤ b) (h2 : b < 192) :
    contByte b = true := by
  simp only [contByte, Bool.and_eq_true, decide_eq_true_eq]
  omega

theorem utf8Run_none_cons (b : Nat) (bs : List Nat) :
    utf8Run none (b :: bs) =
      (if b < 128 then (utf8Run none bs).map (fun t => Char.ofNat b :: t)
      else if b < 192 then none
      else if b < 224 then utf8Run (some (b - 192, 1, 128)) bs
      else if b < 240 then utf8Run (some (b - 224, 2, 2048)) bs
      else utf8Run (some (b - 240, 3, 65536)) bs) := rfl

theorem utf8Run_cont_cons (acc k minV b : Nat) (bs : List Nat) :
    utf8Run (some (acc, k, minV)) (b :: bs) =
      (if contByte b then
        if k = 1 then
          if minV ≤ acc * 64 + (b - 128) ∧ acc * 64 + (b - 128) < 1114112 ∧
              ¬(55296 ≤ acc * 64 + (b - 128) ∧ acc * 64 + (b - 128) < 57344)
          then
            (utf8Run none bs).map
              (fun t => Char.ofNat (acc * 64 + (b - 128)) :: t)
          else none
        else utf8Run (some (acc * 64 + (b - 128), k - 1, minV)) bs
      else none) := rfl

theorem utf8Decode_charUtf8 (c : Char) (r : List Nat) :
    utf8Decode (charUtf8 c ++ r) = (utf8Decode r).map (fun t => c :: t) := by
  have hv := char_valid_nat c
  unfold utf8Decode charUtf8
  by_cases h1 : c.toNat < 128
  · rw [if_pos h1]
    show utf8Run none (c.toNat :: r) = _
    rw [utf8Run_none_cons, if_pos h1, Char.ofNat_toNat]
  · rw [if_neg h1]
    by_cases h2 : c.toNat < 2048
    · rw [if_pos h2]
      show utf8Run none ((192 + c.toNat / 64) :: (128 + c.toNat % 64) :: r) = _
      rw [utf8Run_none_cons, if_neg (by omega), if_neg (by omega),
        if_pos (by omega), utf8Run_cont_cons,
        if_pos (contByte_true _ (by omega) (by omega)), if_pos rfl,
        if_pos (by refine ⟨by omega, by omega, by omega⟩)]
      have harith : (192 + c.toNat / 64 - 192) * 64 + (128 + c.toNat % 64 - 128)
          = c.toNat := by omega
      rw [harith, Char.ofNat_toNat]
    · rw [if_neg h2]
      by_cases h3 : c.toNat < 65536
      · rw [if_pos h3]
        show utf8Run none ((224 + c.toNat / 4096) :: (128 + c.toNat / 64 % 64)
            :: (128 + c.toNat % 64) :: r) = _
        rw [utf8Run_none_cons, if_neg (by omega), if_neg (by omega),
          if_neg (by omega), if_pos (by omega), utf8Run_cont_cons,
          if_pos (contByte_true _ (by omega) (by omega)), if_neg (by omega),
          utf8Run_cont_cons, if_pos (contByte_true _ (by omega) (by omega)),
          if_pos rfl,
          if_pos (by refine ⟨by omega, by omega, by omega⟩)]
        have harith : (224 + c.toNat / 4096 - 224) * 64 +
            (128 + c.toNat / 64 % 64 - 128) = c.toNat / 64 := by omega
        rw [harith]
        have harith2 : c.toNat / 64 * 64 + (128 + c.toNat % 64 - 128)
            = c.toNat := by omega
        rw [harith2, Char.ofNat_toNat]
      · rw [if_neg h3]
        show utf8Run none ((240 + c.toNat / 262144)
            :: (128 + c.toNat / 4096 % 64) :: (128 + c.toNat / 64 % 64)
            :: (128 + c.toNat % 64) :: r) = _
        rw [utf8Run_none_cons, if_neg (by omega), if_neg (by omega),
          if_neg (by omega), if_neg (by omega), utf8Run_cont_cons,
          if_pos (contByte_true _ (by omega) (by omega)), if_neg (by omega),
          utf8Run_cont_cons,
          if_pos (contByte_true _ (by omega) (by omega)), if_neg (by omega),
          utf8Run_cont_cons, if_pos (contByte_true _ (by omega) (by omega)),
          if_pos rfl,
          if_pos (by refine ⟨by omega, by omega, by omega⟩)]
        have harith : ((240 + c.toNat / 262144 - 240) * 64 +
            (128 + c.toNat / 4096 % 64 - 128)) * 64 +
            (128 + c.toNat / 64 % 64 - 128) = c.toNat / 64 := by omega
        rw [harith]
        have harith2 : c.toNat / 64 * 64 + (128 + c.toNat % 64 - 128)
            = c.toNat := by omega
        rw [harith2, Char.ofNat_toNat]

theorem utf8Bytes_nil : utf8Bytes [] = [] := rfl

theorem utf8Bytes_cons (c : Char) (t : Str) :
    utf8Bytes (c :: t) = charUtf8 c ++ utf8Bytes t := by
  simp [utf8Bytes]

theorem utf8Decode_utf8Bytes (s : Str) : utf8Decode (utf8Bytes s) = some s := by
  induction s with
  | nil => rfl
  | cons c t ih =>
      rw [utf8Bytes_cons, utf8Decode_charUtf8, ih]
      rfl

theorem utf8Bytes_lt_256 (s : Str) : ∀ b ∈ utf8Bytes s, b < 256 := by
  intro b hb
  unfold utf8Bytes at hb
  rcases List.mem_flatMap.mp hb with ⟨c, _, hc⟩
  exact charUtf8_lt_256 c b hc

theorem hexVal_upperHexDigit (n : Nat) (h : n < 16) :
    hexVal (upperHexDigit n) = some n := by
  interval_cases n <;> decide

theorem isUnresByte_range (b : Nat) (h : isUnresByte b = true) :
    45 ≤ b ∧ b ≤ 126 ∧ b ≠ 59 ∧ b ≠ 61 ∧ b ≠ 63 ∧ b ≠ 47 ∧ b ≠ 58 := by
  simp only [isUnresByte, Bool.or_eq_true, Bool.and_eq_true,
    decide_eq_true_eq] at h
  omega

theorem escapeByte_lt_128 (b : Nat) (hb : b < 256) :
    ∀ x ∈ escapeByte b, x < 128 := by
  intro x hx
  unfold escapeByte at hx
  by_cases h1 : isUnresByte b
  · rw [if_pos h1] at hx
    simp at hx
    have := isUnresByte_range b h1
    omega
  · rw [if_neg h1] at hx
    by_cases h2 : b = 32
    · rw [if_pos h2] at hx
      simp at hx
      omega
    · rw [if_neg h2] at hx
      simp at hx
      rcases hx with rfl | rfl | rfl
      · omega
      · unfold upperHexDigit
        split <;> omega
      · unfold upperHexDigit
        split <;> omega

theorem pctRun_none_cons (b : Nat) (bs : List Nat) :
    pctRun none (b :: bs) =
      (if b = 37 then pctRun (some none) bs
      else if b = 43 then (pctRun none bs).map (fun t => 32 :: t)
      else (pctRun none bs).map (fun t => b :: t)) := rfl

theorem pctRun_digit1 (b : Nat) (bs : List Nat) :
    pctRun (some none) (b :: bs) =
      (match hexVal b with
      | some hx => pctRun (some (some hx)) bs
      | none => none) := rfl

theorem pctRun_digit2 (hx b : Nat) (bs : List Nat) :
    pctRun (some (some hx)) (b :: bs) =
      (match hexVal b with
      | some hy => (pctRun none bs).map (fun t => (hx * 16 + hy) :: t)
      | none => none) := rfl

theorem percentDecode_escapeByte (b : Nat) (hb : b < 256) (r : List Nat) :
    percentDecode (escapeByte b ++ r) =
      (percentDecode r).map (fun t => b :: t) := by
  unfold escapeByte percentDecode
  by_cases h1 : isUnresByte b
  · rw [if_pos h1]
    have hr := isUnresByte_range b h1
    show pctRun none (b :: r) = _
    rw [pctRun_none_cons, if_neg (by omega), if_neg (by omega)]
  · rw [if_neg h1]
    by_cases h2 : b = 32
    · rw [if_pos h2]
      subst h2
      show pctRun none (43 :: r) = _
      rw [pctRun_none_cons, if_neg (by omega), if_pos rfl]
    · rw [if_neg h2]
      show pctRun none
          (37 :: upperHexDigit (b / 16) :: upperHexDigit (b % 16) :: r) = _
      rw [pctRun_none_cons, if_pos rfl, pctRun_digit1,
        hexVal_upperHexDigit _ (by omega)]
      show pctRun (some (some (b / 16))) (upperHexDigit (b % 16) :: r) = _
      rw [pctRun_digit2, hexVal_upperHexDigit _ (by omega)]
      show (pctRun none r).map (fun t => (b / 16 * 16 + b % 16) :: t) = _
      have harith : b / 16 * 16 + b % 16 = b := by omega
      rw [harith]

theorem percentDecode_escaped (bs : List Nat) (h : ∀ b ∈ bs, b < 256) :
    percentDecode (bs.flatMap escapeByte) = some bs := by
  induction bs with
  | nil => rfl
  | cons b t ih =>
      have hbt : ∀ x ∈ t, x < 256 := fun x hx => h x (List.mem_cons_of_mem b hx)
      rw [List.flatMap_cons,
        percentDecode_escapeByte b (h b (List.mem_cons_self _ _)) _, ih hbt]
      rfl

theorem utf8Bytes_asciiStr (bs : List Nat) (h : ∀ b ∈ bs, b < 128) :
    utf8Bytes (asciiStr bs) = bs := by
  induction bs with
  | nil => rfl
  | cons b t ih =>
      have hb : b < 128 := h b (List.mem_cons_self _ _)
      have hbt : ∀ x ∈ t, x < 128 := fun x hx => h x (List.mem_cons_of_mem b hx)
      show utf8Bytes (Char.ofNat b :: asciiStr t) = b :: t
      rw [utf8Bytes_cons, ih hbt]
      have htn : (Char.ofNat b).toNat = b :=
        charToNat_ofNat b (by unfold Nat.isValidChar; omega)
      have hcu : charUtf8 (Char.ofNat b) = [b] := by
        unfold charUtf8
        rw [htn, if_pos hb]
      rw [hcu]
      rfl

theorem queryUnescape_queryEscape (s : Str) :
    queryUnescape (queryEscape s) = some s := by
  unfold queryUnescape queryEscape asciiStr
  have h128 : ∀ x ∈ (utf8Bytes s).flatMap escapeByte, x < 128 := by
    intro x hx
    rcases List.mem_flatMap.mp hx with ⟨b, hbmem, hb⟩
    exact escapeByte_lt_128 b (utf8Bytes_lt_256 s b hbmem) x hb
  rw [show ((utf8Bytes s).flatMap escapeByte).map Char.ofNat =
      asciiStr ((utf8Bytes s).flatMap escapeByte) from rfl]
  rw [utf8Bytes_asciiStr _ h128,
    percentDecode_escaped _ (utf8Bytes_lt_256 s)]
  show utf8Decode (utf8Bytes s) = some s
  rw [utf8Decode_utf8Bytes]

/-! ## Query string round-trip: `ParseQuery (Encode q) = ` stable sort of `q`. -/

/-- Bytes that can appear in `Encode` output besides `=` and `&`: printable,
and none of `# & ; = ?`. -/
def querySafeByte (x : Nat) : Bool :=
  (36 ≤ x && x ≤ 126) && x ≠ 38 && x ≠ 59 && x ≠ 61 && x ≠ 63

theorem escapeByte_querySafe (b : Nat) (hb : b < 256) :
    ∀ x ∈ escapeByte b, querySafeByte x = true := by
  intro x hx
  unfold escapeByte at hx
  by_cases h1 : isUnresByte b
  · rw [if_pos h1] at hx
    simp at hx
    have := isUnresByte_range b h1
    simp only [querySafeByte, Bool.and_eq_true, decide_eq_true_eq,
      bne_iff_ne, ne_eq]
    omega
  · rw [if_neg h1] at hx
    by_cases h2 : b = 32
    · rw [if_pos h2] at hx
      simp at hx
      subst hx
      decide
    · rw [if_neg h2] at hx
      simp at hx
      simp only [querySafeByte, Bool.and_eq_true, decide_eq_true_eq,
        bne_iff_ne, ne_eq]
      rcases hx with rfl | rfl | rfl
      · omega
      · unfold upperHexDigit
        split <;> omega
      · unfold upperHexDigit
        split <;> omega

theorem queryEscape_safe (s : Str) :
    ∀ c ∈ queryEscape s, c.toNat < 128 ∧ querySafeByte c.toNat = true := by
  intro c hc
  unfold queryEscape asciiStr at hc
  rcases List.mem_map.mp hc with ⟨x, hxmem, rfl⟩
  rcases List.mem_flatMap.mp hxmem with ⟨b, hbmem, hbx⟩
  have hb256 : b < 256 := utf8Bytes_lt_256 s b hbmem
  have hx128 : x < 128 := escapeByte_lt_128 b hb256 x hbx
  have htn : (Char.ofNat x).toNat = x :=
    charToNat_ofNat x (by unfold Nat.isValidChar; omega)
  rw [htn]
  exact ⟨hx128, escapeByte_querySafe b hb256 x hbx⟩

theorem querySafe_ne (c : Char) (h : querySafeByte c.toNat = true) :
    c ≠ '&' ∧ c ≠ ';' ∧ c ≠ '=' ∧ c ≠ '?' ∧ c ≠ '#' ∧ isCTLChar c = false := by
  simp only [querySafeByte, Bool.and_eq_true, decide_eq_true_eq,
    bne_iff_ne, ne_eq] at h
  refine ⟨?_, ?_, ?_, ?_, ?_, ?_⟩
  · exact fun hc => absurd (by rw [hc]; rfl) (show c.toNat ≠ 38 by omega)
  · exact fun hc => absurd (by rw [hc]; rfl) (show c.toNat ≠ 59 by omega)
  · exact fun hc => absurd (by rw [hc]; rfl) (show c.toNat ≠ 61 by omega)
  · exact fun hc => absurd (by rw [hc]; rfl) (show c.toNat ≠ 63 by omega)
  · exact fun hc => absurd (by rw [hc]; rfl) (show c.toNat ≠ 35 by omega)
  · have h1 : ¬c.toNat < 32 := by omega
    have h2 : c.toNat ≠ 127 := by omega
    simp [isCTLChar, h1, h2]

-- `strings.Cut` splitting lemmas.

theorem cutAtChar_cons_ne (c x : Char) (xs : Str) (h : x ≠ c) :
    cutAtChar c (x :: xs) =
      (x :: (cutAtChar c xs).1, (cutAtChar c xs).2) := by
  show (if x = c then (([] : Str), xs)
    else (x :: (cutAtChar c xs).1, (cutAtChar c xs).2)) = _
  rw [if_neg h]

theorem cutAtChar_cons_eq (c : Char) (xs : Str) :
    cutAtChar c (c :: xs) = ([], xs) := by
  show (if c = c then (([] : Str), xs)
    else (c :: (cutAtChar c xs).1, (cutAtChar c xs).2)) = _
  rw [if_pos rfl]

theorem cutAtChar_no (c : Char) (s : Str) (h : c ∉ s) :
    cutAtChar c s = (s, []) := by
  induction s with
  | nil => rfl
  | cons x xs ih =>
      have hx : x ≠ c := fun hxc => h (hxc ▸ List.mem_cons_self _ _)
      rw [cutAtChar_cons_ne c x xs hx,
        ih (fun hm => h (List.mem_cons_of_mem x hm))]

theorem cutAtChar_append_mid (c : Char) (a b : Str) (ha : c ∉ a) :
    cutAtChar c (a ++ c :: b) = (a, b) := by
  induction a with
  | nil => exact cutAtChar_cons_eq c b
  | cons x xs ih =>
      have hx : x ≠ c := fun hxc => ha (hxc ▸ List.mem_cons_self _ _)
      rw [List.cons_append, cutAtChar_cons_ne c x _ hx,
        ih (fun hm => ha (List.mem_cons_of_mem x hm))]

theorem cutAtChar_append_left (c : Char) (a b : Str) (ha : c ∉ a) :
    cutAtChar c (a ++ b) =
      (a ++ (cutAtChar c b).1, (cutAtChar c b).2) := by
  induction a with
  | nil => rfl
  | cons x xs ih =>
      have hx : x ≠ c := fun hxc => ha (hxc ▸ List.mem_cons_self _ _)
      rw [List.cons_append, cutAtChar_cons_ne c x _ hx,
        ih (fun hm => ha (List.mem_cons_of_mem x hm))]
      rfl

theorem cutAtChar_fst_sub (c : Char) (s : Str) :
    ∀ x ∈ (cutAtChar c s).1, x ∈ s := by
  induction s with
  | nil => intro x hx; exact absurd hx (by simp [cutAtChar])
  | cons y ys ih =>
      intro x hx
      by_cases hy : y = c
      · subst hy
        rw [cutAtChar_cons_eq] at hx
        exact absurd hx (by simp)
      · rw [cutAtChar_cons_ne c y ys hy] at hx
        rcases List.mem_cons.mp hx with rfl | hx2
        · exact List.mem_cons_self _ _
        · exact List.mem_cons_of_mem y (ih x hx2)

theorem cutAtChar_snd_sub (c : Char) (s : Str) :
    ∀ x ∈ (cutAtChar c s).2, x ∈ s := by
  induction s with
  | nil => intro x hx; exact absurd hx (by simp [cutAtChar])
  | cons y ys ih =>
      intro x hx
      by_cases hy : y = c
      · subst hy
        rw [cutAtChar_cons_eq] at hx
        exact List.mem_cons_of_mem _ hx
      · rw [cutAtChar_cons_ne c y ys hy] at hx
        exact List.mem_cons_of_mem y (ih x hx)

theorem cutAtChar_fst_no (c : Char) (s : Str) : c ∉ (cutAtChar c s).1 := by
  induction s with
  | nil => simp [cutAtChar]
  | cons y ys ih =>
      by_cases hy : y = c
      · subst hy
        rw [cutAtChar_cons_eq]
        simp
      · rw [cutAtChar_cons_ne c y ys hy]
        intro hmem
        rcases List.mem_cons.mp hmem with heq | h2
        · exact hy heq.symm
        · exact ih h2

-- `splitOnChar` / `joinAmp` inverse on `&`-free pieces.

theorem splitOnChar_cons (c x : Char) (xs : Str) :
    splitOnChar c (x :: xs) =
      if x = c then [] :: splitOnChar c xs
      else consHead x (splitOnChar c xs) := rfl

theorem splitOnChar_ne_nil (c : Char) (s : Str) : splitOnChar c s ≠ [] := by
  cases s with
  | nil => simp [splitOnChar]
  | cons x xs =>
      rw [splitOnChar_cons]
      by_cases hx : x = c
      · simp [hx]
      · rw [if_neg hx]
        cases splitOnChar c xs with
        | nil => simp [consHead]
        | cons h t => simp [consHead]

theorem splitOnChar_no (c : Char) (s : Str) (h : c ∉ s) :
    splitOnChar c s = [s] := by
  induction s with
  | nil => rfl
  | cons x xs ih =>
      have hx : x ≠ c := fun hxc => h (hxc ▸ List.mem_cons_self _ _)
      rw [splitOnChar_cons, if_neg hx,
        ih (fun hm => h (List.mem_cons_of_mem x hm))]
      rfl

theorem splitOnChar_sep (c : Char) (a r : Str) (ha : c ∉ a) :
    splitOnChar c (a ++ c :: r) = a :: splitOnChar c r := by
  induction a with
  | nil =>
      show splitOnChar c (c :: r) = [] :: splitOnChar c r
      rw [splitOnChar_cons, if_pos rfl]
  | cons x xs ih =>
      have hx : x ≠ c := fun hxc => ha (hxc ▸ List.mem_cons_self _ _)
      have ih2 := ih (fun hm => ha (List.mem_cons_of_mem x hm))
      show splitOnChar c (x :: (xs ++ c :: r)) = (x :: xs) :: splitOnChar c r
      rw [splitOnChar_cons, if_neg hx, ih2]
      rfl

theorem splitOnChar_joinAmp (ps : List Str) (hne : ps ≠ [])
    (h : ∀ p ∈ ps, '&' ∉ p) : splitOnChar '&' (joinAmp ps) = ps := by
  induction ps with
  | nil => exact absurd rfl hne
  | cons p ps ih =>
      cases ps with
      | nil =>
          show splitOnChar '&' p = [p]
          exact splitOnChar_no '&' p (h p (List.mem_cons_self _ _))
      | cons q t =>
          show splitOnChar '&' (p ++ '&' :: joinAmp (q :: t)) = p :: q :: t
          rw [splitOnChar_sep '&' p _ (h p (List.mem_cons_self _ _))]
          rw [ih (by simp) (fun x hx => h x (List.mem_cons_of_mem p hx))]

-- `processPiece` inverts `encPair`.

theorem encPair_no_sep (p : Str × Str) :
    '&' ∉ encPair p ∧ ';' ∉ encPair p ∧ '=' ∉ queryEscape p.1 := by
  refine ⟨?_, ?_, ?_⟩
  · intro hmem
    unfold encPair at hmem
    rcases List.mem_append.mp hmem with h1 | h2
    · exact absurd rfl (querySafe_ne _ (queryEscape_safe p.1 _ h1).2).1
    · rcases List.mem_cons.mp h2 with heq | h3
      · exact absurd heq (by decide)
      · exact absurd rfl (querySafe_ne _ (queryEscape_safe p.2 _ h3).2).1
  · intro hmem
    unfold encPair at hmem
    rcases List.mem_append.mp hmem with h1 | h2
    · exact absurd rfl (querySafe_ne _ (queryEscape_safe p.1 _ h1).2).2.1
    · rcases List.mem_cons.mp h2 with heq | h3
      · exact absurd heq (by decide)
      · exact absurd rfl (querySafe_ne _ (queryEscape_safe p.2 _ h3).2).2.1
  · intro hmem
    exact absurd rfl (querySafe_ne _ (queryEscape_safe p.1 _ hmem).2).2.2.1

theorem processPiece_encPair (p : Str × Str) :
    processPiece (encPair p) = some p := by
  obtain ⟨hamp, hsemi, heq⟩ := encPair_no_sep p
  unfold processPiece
  rw [if_neg (show ¬encPair p = [] by unfold encPair; simp)]
  rw [if_neg (show ¬(encPair p).contains ';' = true by
    simp
    exact hsemi)]
  have hcut : cutAtChar '=' (encPair p) = (queryEscape p.1, queryEscape p.2) :=
    cutAtChar_append_mid '=' _ _ heq
  rw [hcut]
  show (match queryUnescape (queryEscape p.1),
      queryUnescape (queryEscape p.2) with
    | some k, some v => some (k, v)
    | _, _ => none) = some p
  rw [queryUnescape_queryEscape, queryUnescape_queryEscape]

theorem parseQueryList_encodeQuery (q : QPairs) :
    parseQueryList (encodeQuery q) = sortPairs q := by
  unfold parseQueryList encodeQuery
  cases hs : sortPairs q with
  | nil => rfl
  | cons p ps =>
      rw [splitOnChar_joinAmp ((p :: ps).map encPair) (by simp)
        (by
          intro x hx
          rcases List.mem_map.mp hx with ⟨pr, _, rfl⟩
          exact (encPair_no_sep pr).1)]
      rw [List.filterMap_map]
      have : (processPiece ∘ encPair) = fun pr => some pr := by
        funext pr
        exact processPiece_encPair pr
      rw [this, List.filterMap_some]

/-! ## Stable sort algebra for `Values.Encode`. -/

theorem strLe_refl (a : Str) : strLe a a = true := by
  induction a with
  | nil => rfl
  | cons x xs ih =>
      show (if x = x then strLe xs xs else decide (x < x)) = true
      rw [if_pos rfl, ih]

theorem strLe_total (a b : Str) : strLe a b = true ∨ strLe b a = true := by
  induction a generalizing b with
  | nil => left; rfl
  | cons x xs ih =>
      cases b with
      | nil => right; rfl
      | cons y ys =>
          show (if x = y then strLe xs ys else decide (x < y)) = true ∨
            (if y = x then strLe ys xs else decide (y < x)) = true
          by_cases hxy : x = y
          · subst hxy
            rw [if_pos rfl, if_pos rfl]
            exact ih ys
          · rw [if_neg hxy, if_neg (fun h => hxy h.symm)]
            rcases lt_or_gt_of_ne hxy with h | h
            · left; simpa using h
            · right; simpa using h

theorem strLe_trans (a b c : Str) (h1 : strLe a b = true)
    (h2 : strLe b c = true) : strLe a c = true := by
  induction a generalizing b c with
  | nil => rfl
  | cons x xs ih =>
      cases b with
      | nil => exact absurd h1 (by simp [strLe])
      | cons y ys =>
          cases c with
          | nil => exact absurd h2 (by simp [strLe])
          | cons z zs =>
              rw [show strLe (x :: xs) (y :: ys) =
                if x = y then strLe xs ys else decide (x < y) from rfl] at h1
              rw [show strLe (y :: ys) (z :: zs) =
                if y = z then strLe ys zs else decide (y < z) from rfl] at h2
              rw [show strLe (x :: xs) (z :: zs) =
                if x = z then strLe xs zs else decide (x < z) from rfl]
              by_cases hxy : x = y
              · subst hxy
                rw [if_pos rfl] at h1
                by_cases hyz : x = z
                · subst hyz
                  rw [if_pos rfl] at h2
                  rw [if_pos rfl]
                  exact ih ys zs h1 h2
                · rw [if_neg hyz] at h2
                  rw [if_neg hyz]
                  exact h2
              · rw [if_neg hxy] at h1
                by_cases hyz : y = z
                · subst hyz
                  rw [if_neg hxy]
                  exact h1
                · rw [if_neg hyz] at h2
                  have hlt : x < z :=
                    lt_trans (by simpa using h1) (by simpa using h2)
                  rw [if_neg (ne_of_lt hlt)]
                  simpa using hlt

/-- The key order underlying `sortPairs`. -/
def pairLe (a b : Str × Str) : Prop := strLe a.1 b.1 = true

theorem insertPair_cons (x y : Str × Str) (ys : QPairs) :
    insertPair x (y :: ys) =
      if strLe y.1 x.1 then y :: insertPair x ys else x :: y :: ys := rfl

theorem insertPair_mem (x : Str × Str) (l : QPairs) :
    ∀ z ∈ insertPair x l, z = x ∨ z ∈ l := by
  induction l with
  | nil =>
      intro z hz
      simp [insertPair] at hz
      exact Or.inl hz
  | cons y ys ih =>
      intro z hz
      unfold insertPair at hz
      by_cases hle : strLe y.1 x.1
      · rw [if_pos hle] at hz
        rcases List.mem_cons.mp hz with rfl | hz2
        · exact Or.inr (List.mem_cons_self _ _)
        · rcases ih z hz2 with h | h
          · exact Or.inl h
          · exact Or.inr (List.mem_cons_of_mem y h)
      · rw [if_neg hle] at hz
        rcases List.mem_cons.mp hz with rfl | hz2
        · exact Or.inl rfl
        · exact Or.inr hz2

theorem insertPair_sorted (x : Str × Str) (l : QPairs)
    (h : l.Pairwise pairLe) : (insertPair x l).Pairwise pairLe := by
  induction l with
  | nil => simp [insertPair, List.pairwise_cons]
  | cons y ys ih =>
      unfold insertPair
      by_cases hle : strLe y.1 x.1
      · rw [if_pos hle]
        rcases List.pairwise_cons.mp h with ⟨hy, hys⟩
        refine List.pairwise_cons.mpr ⟨?_, ih hys⟩
        intro z hz
        rcases insertPair_mem x ys z hz with rfl | hz2
        · exact hle
        · exact hy z hz2
      · rw [if_neg hle]
        refine List.pairwise_cons.mpr ⟨?_, h⟩
        intro z hz
        have hxy : strLe x.1 y.1 = true := by
          rcases strLe_total y.1 x.1 with h1 | h1
          · exact absurd h1 hle
          · exact h1
        rcases List.mem_cons.mp hz with rfl | hz2
        · exact hxy
        · rcases List.pairwise_cons.mp h with ⟨hy, _⟩
          exact strLe_trans _ _ _ hxy (hy z hz2)

theorem sortPairs_cons_arg (x : Str × Str) (l : QPairs) (acc : QPairs) :
    List.foldl (fun a p => insertPair p a) acc (x :: l) =
      List.foldl (fun a p => insertPair p a) (insertPair x acc) l := rfl

theorem foldl_insert_sorted (l : QPairs) :
    ∀ acc : QPairs, acc.Pairwise pairLe →
      (List.foldl (fun a p => insertPair p a) acc l).Pairwise pairLe := by
  induction l with
  | nil => intro acc h; exact h
  | cons x xs ih =>
      intro acc h
      rw [sortPairs_cons_arg]
      exact ih _ (insertPair_sorted x acc h)

theorem sortPairs_sorted (q : QPairs) : (sortPairs q).Pairwise pairLe :=
  foldl_insert_sorted q [] (by simp)

theorem insertPair_at_end (x : Str × Str) (l : QPairs)
    (h : ∀ y ∈ l, strLe y.1 x.1 = true) : insertPair x l = l ++ [x] := by
  induction l with
  | nil => rfl
  | cons y ys ih =>
      unfold insertPair
      rw [if_pos (h y (List.mem_cons_self _ _)),
        ih (fun z hz => h z (List.mem_cons_of_mem y hz))]
      rfl

theorem foldl_insert_of_sorted (l : QPairs) :
    ∀ acc : QPairs, (acc ++ l).Pairwise pairLe →
      List.foldl (fun a p => insertPair p a) acc l = acc ++ l := by
  induction l with
  | nil => intro acc _; simp
  | cons x xs ih =>
      intro acc h
      rw [sortPairs_cons_arg]
      have hend : insertPair x acc = acc ++ [x] := by
        apply insertPair_at_end
        intro y hy
        have := (List.pairwise_append.mp h).2.2
        exact this y hy x (List.mem_cons_self _ _)
      rw [hend, ih (acc ++ [x]) (by simpa using h)]
      simp

theorem sortPairs_of_sorted (l : QPairs) (h : l.Pairwise pairLe) :
    sortPairs l = l := by
  have := foldl_insert_of_sorted l [] (by simpa using h)
  simpa [sortPairs] using this

theorem sortPairs_idem (q : QPairs) : sortPairs (sortPairs q) = sortPairs q :=
  sortPairs_of_sorted _ (sortPairs_sorted q)

theorem sortPairs_append_one (l : QPairs) (x : Str × Str) :
    sortPairs (l ++ [x]) = insertPair x (sortPairs l) := by
  unfold sortPairs
  rw [List.foldl_append]
  rfl

theorem filter_insertPair (p : Str × Str → Bool) (x : Str × Str)
    (l : QPairs) (hl : l.Pairwise pairLe) :
    (insertPair x l).filter p =
      if p x then insertPair x (l.filter p) else l.filter p := by
  induction l with
  | nil =>
      show [x].filter p = _
      by_cases hp : p x <;> simp [hp, insertPair]
  | cons y ys ih =>
      rcases List.pairwise_cons.mp hl with ⟨hy, hys⟩
      rw [insertPair_cons]
      by_cases hle : strLe y.1 x.1
      · rw [if_pos hle]
        by_cases hp : p x
        · rw [if_pos hp]
          by_cases hpy : p y
          · rw [List.filter_cons_of_pos hpy, List.filter_cons_of_pos hpy,
              ih hys, if_pos hp, insertPair_cons, if_pos hle]
          · rw [List.filter_cons_of_neg hpy, List.filter_cons_of_neg hpy,
              ih hys, if_pos hp]
        · rw [if_neg hp]
          by_cases hpy : p y
          · rw [List.filter_cons_of_pos hpy, List.filter_cons_of_pos hpy,
              ih hys, if_neg hp]
          · rw [List.filter_cons_of_neg hpy, List.filter_cons_of_neg hpy,
              ih hys, if_neg hp]
      · rw [if_neg hle]
        by_cases hp : p x
        · rw [if_pos hp, List.filter_cons_of_pos hp]
          by_cases hpy : p y
          · rw [List.filter_cons_of_pos hpy, insertPair_cons, if_neg hle]
          · rw [List.filter_cons_of_neg hpy]
            -- every key in y :: ys is strictly above x's key, so the filtered
            -- tail contains no pair that `insertPair` would pass over … but
            -- here we must show x :: filter ys = insertPair x (filter ys):
            -- all of ys is ≥ y > x, so insertPair x prepends.
            have hxy : strLe x.1 y.1 = true := by
              rcases strLe_total y.1 x.1 with h1 | h1
              · exact absurd h1 hle
              · exact h1
            cases hf : ys.filter p with
            | nil => rfl
            | cons z zs =>
                have hz : z ∈ ys.filter p := by rw [hf]; exact List.mem_cons_self _ _
                have hzys : z ∈ ys := List.mem_of_mem_filter hz
                rw [insertPair_cons,
                  if_neg (show ¬strLe z.1 x.1 = true from ?_)]
                intro hzx
                have hyz : strLe y.1 z.1 = true := hy z hzys
                exact hle (strLe_trans _ _ _ hyz hzx)
        · rw [if_neg hp, List.filter_cons_of_neg hp]

theorem sortPairs_filter (p : Str × Str → Bool) (q : QPairs) :
    (sortPairs q).filter p = sortPairs (q.filter p) := by
  induction q using List.reverseRecOn with
  | nil => rfl
  | append_singleton l x ih =>
      rw [sortPairs_append_one,
        filter_insertPair p x (sortPairs l) (sortPairs_sorted l), ih,
        List.filter_append]
      by_cases hp : p x
      · rw [if_pos hp]
        rw [show List.filter p [x] = [x] by simp [hp]]
        rw [sortPairs_append_one]
      · rw [if_neg hp]
        rw [show List.filter p [x] = [] by simp [hp]]
        rw [List.append_nil]

theorem filterKey_cons_pos (k : Str) (y : Str × Str) (l : QPairs)
    (h : (y.1 == k) = true) :
    (y :: l).filter (fun p => p.1 == k) =
      y :: l.filter (fun p => p.1 == k) := by
  rw [List.filter_cons]
  simp only [h, if_true]

theorem filterKey_cons_neg (k : Str) (y : Str × Str) (l : QPairs)
    (h : ¬(y.1 == k) = true) :
    (y :: l).filter (fun p => p.1 == k) = l.filter (fun p => p.1 == k) := by
  rw [List.filter_cons]
  simp only [h, Bool.false_eq_true, if_false]

/-- Pairs of one fixed key keep their original order and multiplicity
through the stable sort. -/
theorem filterKeyEq_insertPair (k : Str) (x : Str × Str) (l : QPairs)
    (hl : l.Pairwise pairLe) :
    (insertPair x l).filter (fun p => p.1 == k) =
      l.filter (fun p => p.1 == k) ++ (if x.1 == k then [x] else []) := by
  induction l with
  | nil =>
      show [x].filter _ = _
      by_cases hp : x.1 == k <;> simp [hp]
  | cons y ys ih =>
      rcases List.pairwise_cons.mp hl with ⟨hy, hys⟩
      rw [insertPair_cons]
      by_cases hle : strLe y.1 x.1
      · rw [if_pos hle]
        by_cases hpy : y.1 == k
        · rw [filterKey_cons_pos k y (insertPair x ys) hpy,
            filterKey_cons_pos k y ys hpy, ih hys]
          rfl
        · rw [filterKey_cons_neg k y (insertPair x ys) hpy,
            filterKey_cons_neg k y ys hpy, ih hys]
      · rw [if_neg hle]
        by_cases hpx : x.1 == k
        · rw [if_pos hpx, filterKey_cons_pos k x (y :: ys) hpx]
          have hkeynil : (y :: ys).filter (fun p => p.1 == k) = [] := by
            rw [List.filter_eq_nil_iff]
            intro z hz
            simp only [beq_iff_eq]
            intro hzk
            have hxk : x.1 = k := by simpa using hpx
            rcases List.mem_cons.mp hz with rfl | hzys
            · refine hle ?_
              show strLe z.1 x.1 = true
              rw [hzk, hxk]
              exact strLe_refl k
            · have hyz : strLe y.1 z.1 = true := hy z hzys
              rw [hzk, ← hxk] at hyz
              exact hle hyz
          rw [hkeynil]
          rfl
        · rw [if_neg hpx, filterKey_cons_neg k x (y :: ys) hpx,
            List.append_nil]

theorem filterKeyEq_foldl (k : Str) (l : QPairs) :
    ∀ acc : QPairs, acc.Pairwise pairLe →
      (List.foldl (fun a p => insertPair p a) acc l).filter
          (fun p => p.1 == k) =
        acc.filter (fun p => p.1 == k) ++ l.filter (fun p => p.1 == k) := by
  induction l with
  | nil => intro acc _; simp
  | cons x xs ih =>
      intro acc hacc
      rw [sortPairs_cons_arg, ih _ (insertPair_sorted x acc hacc),
        filterKeyEq_insertPair k x acc hacc]
      by_cases hpx : x.1 == k
      · rw [if_pos hpx, filterKey_cons_pos k x xs hpx, List.append_assoc]
        rfl
      · rw [if_neg hpx, filterKey_cons_neg k x xs hpx, List.append_nil]

theorem filterKeyEq_sortPairs (k : Str) (q : QPairs) :
    (sortPairs q).filter (fun p => p.1 == k) =
      q.filter (fun p => p.1 == k) := by
  have := filterKeyEq_foldl k q [] (by simp)
  simpa [sortPairs] using this

/-! ## Normal form of the `query.Set` block. -/

/-- The UTM pairs appended by `setUTM`, in `Set`-call order. -/
def utmPairs (f : UTMFields) : QPairs :=
  [(str "utm_source", f.source), (str "utm_medium", f.medium),
   (str "utm_campaign", f.campaign), (str "utm_content", f.content)] ++
  (if f.term ≠ [] then [(str "utm_term", f.term)] else [])

/-- The pairs `setUTM` keeps from the original query: those whose key is
none of the keys that get `Set`. -/
def keepP (f : UTMFields) (p : Str × Str) : Bool :=
  !(p.1 == str "utm_source") && !(p.1 == str "utm_medium") &&
  !(p.1 == str "utm_campaign") && !(p.1 == str "utm_content") &&
  (decide (f.term = []) || !(p.1 == str "utm_term"))

theorem filter_keep_list (k : Str) (L : QPairs)
    (h : ∀ p ∈ L, (p.1 == k) = false) :
    L.filter (fun p => !(p.1 == k)) = L := by
  rw [List.filter_eq_self]
  intro a ha
  rw [h a ha]
  rfl

theorem setValue_shift (X L : QPairs) (k w : Str)
    (h : ∀ p ∈ L, (p.1 == k) = false) :
    setValue (X ++ L) k w =
      X.filter (fun p => !(p.1 == k)) ++ (L ++ [(k, w)]) := by
  unfold setValue
  rw [List.filter_append, filter_keep_list k L h, List.append_assoc]

theorem setUTM_eq (q : QPairs) (f : UTMFields) :
    setUTM q f = q.filter (keepP f) ++ utmPairs f := by
  have t1 : setValue q (str "utm_source") f.source =
      q.filter (fun p => !(p.1 == str "utm_source")) ++
        [(str "utm_source", f.source)] := rfl
  have t2 := setValue_shift (q.filter (fun p => !(p.1 == str "utm_source")))
    [(str "utm_source", f.source)] (str "utm_medium") f.medium
    (by
      intro p hp
      simp only [List.mem_singleton] at hp
      subst hp
      rfl)
  have t3 := setValue_shift
    ((q.filter (fun p => !(p.1 == str "utm_source"))).filter
      (fun p => !(p.1 == str "utm_medium")))
    [(str "utm_source", f.source), (str "utm_medium", f.medium)]
    (str "utm_campaign") f.campaign
    (by
      intro p hp
      simp only [List.mem_cons, List.not_mem_nil, or_false] at hp
      rcases hp with rfl | rfl
      · rfl
      · rfl)
  have t4 := setValue_shift
    (((q.filter (fun p => !(p.1 == str "utm_source"))).filter
        (fun p => !(p.1 == str "utm_medium"))).filter
      (fun p => !(p.1 == str "utm_campaign")))
    [(str "utm_source", f.source), (str "utm_medium", f.medium),
     (str "utm_campaign", f.campaign)]
    (str "utm_content") f.content
    (by
      intro p hp
      simp only [List.mem_cons, List.not_mem_nil, or_false] at hp
      rcases hp with rfl | rfl | rfl
      · rfl
      · rfl
      · rfl)
  have t5 := setValue_shift
    ((((q.filter (fun p => !(p.1 == str "utm_source"))).filter
          (fun p => !(p.1 == str "utm_medium"))).filter
        (fun p => !(p.1 == str "utm_campaign"))).filter
      (fun p => !(p.1 == str "utm_content")))
    [(str "utm_source", f.source), (str "utm_medium", f.medium),
     (str "utm_campaign", f.campaign), (str "utm_content", f.content)]
    (str "utm_term") f.term
    (by
      intro p hp
      simp only [List.mem_cons, List.not_mem_nil, or_false] at hp
      rcases hp with rfl | rfl | rfl | rfl
      · rfl
      · rfl
      · rfl
      · rfl)
  simp only [List.cons_append, List.nil_append] at t2 t3 t4 t5
  show (if f.term ≠ [] then
      setValue (setValue (setValue (setValue (setValue q
        (str "utm_source") f.source) (str "utm_medium") f.medium)
        (str "utm_campaign") f.campaign) (str "utm_content") f.content)
        (str "utm_term") f.term
    else setValue (setValue (setValue (setValue q
        (str "utm_source") f.source) (str "utm_medium") f.medium)
        (str "utm_campaign") f.campaign) (str "utm_content") f.content)
    = q.filter (keepP f) ++ utmPairs f
  rw [t1, t2, t3, t4]
  unfold utmPairs keepP
  by_cases ht : f.term = []
  · rw [if_neg (fun hc => hc ht), if_neg (fun hc => hc ht),
      List.filter_filter, List.filter_filter, List.filter_filter]
    simp only [List.append_nil]
    rw [show (decide (f.term = [])) = true by simp [ht]]
    apply congrArg (fun X => X ++ _)
    apply List.filter_congr
    intro a _
    cases h1 : a.1 == str "utm_source" <;>
      cases h2 : a.1 == str "utm_medium" <;>
      cases h3 : a.1 == str "utm_campaign" <;>
      cases h4 : a.1 == str "utm_content" <;> rfl
  · rw [if_pos ht, if_pos ht, t5, List.filter_filter, List.filter_filter,
      List.filter_filter, List.filter_filter]
    rw [show (decide (f.term = [])) = false by simp [ht]]
    apply congrArg (fun X => X ++ _)
    apply List.filter_congr
    intro a _
    cases h1 : a.1 == str "utm_source" <;>
      cases h2 : a.1 == str "utm_medium" <;>
      cases h3 : a.1 == str "utm_campaign" <;>
      cases h4 : a.1 == str "utm_content" <;>
      cases h5 : a.1 == str "utm_term" <;> rfl

theorem keepP_utmPairs (f : UTMFields) :
    (utmPairs f).filter (keepP f) = [] := by
  unfold utmPairs
  by_cases ht : f.term = []
  · rw [if_neg (fun hc => hc ht)]
    rfl
  · rw [if_pos ht]
    show List.filter (keepP f) [(str "utm_term", f.term)] = []
    rw [List.filter_cons]
    rw [show keepP f (str "utm_term", f.term) = false by
      unfold keepP
      rw [show (decide (f.term = [])) = false by simp [ht]]
      rfl]
    simp

theorem filter_keepP_idem (q : QPairs) (f : UTMFields) :
    (q.filter (keepP f)).filter (keepP f) = q.filter (keepP f) := by
  rw [List.filter_filter]
  apply List.filter_congr
  intro a _
  exact Bool.and_self (keepP f a)

theorem setUTM_idem (q : QPairs) (f : UTMFields) :
    setUTM (setUTM q f) f = setUTM q f := by
  rw [setUTM_eq, setUTM_eq, List.filter_append, filter_keepP_idem,
    keepP_utmPairs, List.append_nil]

theorem sortPairs_sandwich (P : QPairs) :
    ∀ A : QPairs, sortPairs (sortPairs A ++ P) = sortPairs (A ++ P) := by
  induction P using List.reverseRecOn with
  | nil =>
      intro A
      simp only [List.append_nil]
      exact sortPairs_idem A
  | append_singleton P x ih =>
      intro A
      rw [← List.append_assoc, ← List.append_assoc, sortPairs_append_one,
        sortPairs_append_one, ih]

theorem sortPairs_setUTM_sortPairs (X : QPairs) (f : UTMFields) :
    sortPairs (setUTM (sortPairs X) f) = sortPairs (setUTM X f) := by
  rw [setUTM_eq, setUTM_eq, sortPairs_filter, sortPairs_sandwich]

/-- The query string is a fixed point of re-parsing and re-setting:
the heart of C5. -/
theorem encode_setUTM_stable (q0 : QPairs) (f : UTMFields) :
    encodeQuery (setUTM (parseQueryList (encodeQuery (setUTM q0 f))) f) =
      encodeQuery (setUTM q0 f) := by
  rw [parseQueryList_encodeQuery]
  unfold encodeQuery
  rw [sortPairs_setUTM_sortPairs, setUTM_idem]

theorem filterKey_utmPairs_ne (f : UTMFields) (k : Str)
    (h1 : k ≠ str "utm_source") (h2 : k ≠ str "utm_medium")
    (h3 : k ≠ str "utm_campaign") (h4 : k ≠ str "utm_content")
    (h5 : k ≠ str "utm_term") :
    (utmPairs f).filter (fun p => p.1 == k) = [] := by
  rw [List.filter_eq_nil_iff]
  intro p hp
  unfold utmPairs at hp
  simp only [beq_iff_eq]
  rcases List.mem_append.mp hp with h | h
  · simp only [List.mem_cons, List.not_mem_nil, or_false] at h
    rcases h with rfl | rfl | rfl | rfl
    · exact fun he => h1 he.symm
    · exact fun he => h2 he.symm
    · exact fun he => h3 he.symm
    · exact fun he => h4 he.symm
  · by_cases ht : f.term ≠ []
    · rw [if_pos ht] at h
      simp only [List.mem_singleton] at h
      subst h
      exact fun he => h5 he.symm
    · rw [if_neg ht] at h
      exact absurd h (List.not_mem_nil p)

theorem filterKey_keepP (q : QPairs) (f : UTMFields) (k : Str)
    (h1 : k ≠ str "utm_source") (h2 : k ≠ str "utm_medium")
    (h3 : k ≠ str "utm_campaign") (h4 : k ≠ str "utm_content")
    (h5 : k ≠ str "utm_term") :
    (q.filter (keepP f)).filter (fun p => p.1 == k) =
      q.filter (fun p => p.1 == k) := by
  rw [List.filter_filter]
  apply List.filter_congr
  intro a _
  by_cases hk : (a.1 == k) = true
  · have hak : a.1 = k := by simpa using hk
    have hkeep : keepP f a = true := by
      unfold keepP
      rw [hak]
      rw [show (k == str "utm_source") = false by simpa using h1,
        show (k == str "utm_medium") = false by simpa using h2,
        show (k == str "utm_campaign") = false by simpa using h3,
        show (k == str "utm_content") = false by simpa using h4,
        show (k == str "utm_term") = false by simpa using h5]
      cases decide (f.term = []) <;> rfl
    rw [hkeep, hk]
    rfl
  · rw [show (a.1 == k) = false by simpa using hk]
    rw [Bool.false_and]

/-- The parse of `https://example.org/p?ref=abc` in the model. -/
def exampleRefURL : GoURL :=
  ⟨str "https", [], str "example.org", false, false, str "/p",
   str "ref=abc", []⟩

set_option maxRecDepth 100000 in
/-- C4: the example merge keeps `ref=abc`; in general, assembly leaves
scheme, host and path untouched and preserves every query parameter whose
key is none of the five UTM tag keys (same values, same order). -/
theorem c4_merge_preserves_foreign :
    (assemble (str "https://example.org/p?ref=abc") exampleFields =
      some (str "https://example.org/p?ref=abc&utm_campaign=su_kuyusu_genel&utm_content=kreatif_ismi&utm_medium=cpc&utm_source=google")) ∧
    (∀ (u : GoURL) (f : UTMFields) (k : Str),
      k ≠ str "utm_source" → k ≠ str "utm_medium" →
      k ≠ str "utm_campaign" → k ≠ str "utm_content" → k ≠ str "utm_term" →
      ((assembleStruct u f).scheme = u.scheme ∧
       (assembleStruct u f).host = u.host ∧
       (assembleStruct u f).path = u.path ∧
       (assembleStruct u f).opq = u.opq ∧
       (assembleStruct u f).fragment = u.fragment) ∧
      (parseQueryList (assembleStruct u f).rawQuery).filter
          (fun p => p.1 == k) =
        (parseQueryList u.rawQuery).filter (fun p => p.1 == k)) := by
  constructor
  · decide
  · intro u f k h1 h2 h3 h4 h5
    refine ⟨⟨rfl, rfl, rfl, rfl, rfl⟩, ?_⟩
    show (parseQueryList (encodeQuery (setUTM (parseQueryList u.rawQuery) f))).filter
        (fun p => p.1 == k) = _
    rw [parseQueryList_encodeQuery, filterKeyEq_sortPairs, setUTM_eq,
      List.filter_append, filterKey_keepP _ f k h1 h2 h3 h4 h5,
      filterKey_utmPairs_ne f k h1 h2 h3 h4 h5, List.append_nil]

set_option maxRecDepth 100000 in
theorem c4_merge_preserves_foreign_witness :
    ((assembleStruct exampleRefURL exampleFields).scheme = exampleRefURL.scheme ∧
     (assembleStruct exampleRefURL exampleFields).host = exampleRefURL.host ∧
     (assembleStruct exampleRefURL exampleFields).path = exampleRefURL.path ∧
     (assembleStruct exampleRefURL exampleFields).opq = exampleRefURL.opq ∧
     (assembleStruct exampleRefURL exampleFields).fragment =
       exampleRefURL.fragment) ∧
    (parseQueryList (assembleStruct exampleRefURL exampleFields).rawQuery).filter
        (fun p => p.1 == str "ref") =
      (parseQueryList exampleRefURL.rawQuery).filter
        (fun p => p.1 == str "ref") :=
  c4_merge_preserves_foreign.2 exampleRefURL exampleFields (str "ref")
    (by decide) (by decide) (by decide) (by decide) (by decide)

/-! ## The C5 round-trip: `String()` output re-parses to the same URL.
Character- and list-level helper facts. -/

theorem getLast?_mem' {α : Type} (l : List α) (a : α)
    (h : l.getLast? = some a) : a ∈ l := by
  induction l with
  | nil => simp at h
  | cons x t ih =>
      cases t with
      | nil =>
          simp at h
          subst h
          exact List.mem_cons_self _ _
      | cons y r =>
          rw [List.getLast?_cons_cons] at h
          exact List.mem_cons_of_mem x (ih h)

theorem char_ne_of_toNat (c d : Char) (h : c.toNat ≠ d.toNat) : c ≠ d :=
  fun hc => h (by rw [hc])

theorem isSchemeChar_facts (c : Char) (h : isSchemeChar c = true) :
    c ≠ '#' ∧ c ≠ '?' ∧ c ≠ ':' ∧ c ≠ '/' ∧ isCTLChar c = false := by
  simp only [isSchemeChar, isAlphaChar, isDigitChar, Bool.or_eq_true,
    Bool.and_eq_true, decide_eq_true_eq] at h
  have hr : 43 ≤ c.toNat ∧ c.toNat ≤ 122 ∧ c.toNat ≠ 35 ∧ c.toNat ≠ 63 ∧
      c.toNat ≠ 58 ∧ c.toNat ≠ 47 := by
    rcases h with ((((h | h) | h) | rfl) | rfl) | rfl
    · omega
    · omega
    · omega
    · decide
    · decide
    · decide
  obtain ⟨h1, h2, h3, h4, h5, h6⟩ := hr
  have e1 : '#'.toNat = 35 := rfl
  have e2 : '?'.toNat = 63 := rfl
  have e3 : ':'.toNat = 58 := rfl
  have e4 : '/'.toNat = 47 := rfl
  refine ⟨char_ne_of_toNat c '#' (by rw [e1]; omega),
    char_ne_of_toNat c '?' (by rw [e2]; omega),
    char_ne_of_toNat c ':' (by rw [e3]; omega),
    char_ne_of_toNat c '/' (by rw [e4]; omega), ?_⟩
  simp only [isCTLChar, Bool.or_eq_false_iff, decide_eq_false_iff_not]
  omega

theorem lowerTable_schemeChar :
    ∀ p ∈ lowerTable, isSchemeChar p.1 = true → isSchemeChar p.2 = true := by
  decide

theorem lowerTable_alphaChar :
    ∀ p ∈ lowerTable, isAlphaChar p.1 = true → isAlphaChar p.2 = true := by
  decide

theorem goToLowerChar_schemeChar (c : Char) (h : isSchemeChar c = true) :
    isSchemeChar (goToLowerChar c) = true := by
  unfold goToLowerChar
  cases hf : lowerTable.find? (fun p => p.1 = c) with
  | none => exact h
  | some p =>
      have hp : p ∈ lowerTable := List.mem_of_find?_eq_some hf
      have hc : p.1 = c := by simpa using List.find?_some hf
      exact lowerTable_schemeChar p hp (hc ▸ h)

theorem goToLowerChar_alphaChar (c : Char) (h : isAlphaChar c = true) :
    isAlphaChar (goToLowerChar c) = true := by
  unfold goToLowerChar
  cases hf : lowerTable.find? (fun p => p.1 = c) with
  | none => exact h
  | some p =>
      have hp : p ∈ lowerTable := List.mem_of_find?_eq_some hf
      have hc : p.1 = c := by simpa using List.find?_some hf
      exact lowerTable_alphaChar p hp (hc ▸ h)

theorem goToLowerChar_idem (c : Char) :
    goToLowerChar (goToLowerChar c) = goToLowerChar c :=
  goToLowerChar_of_no_key _ (goToLowerChar_no_lowerKey c)

theorem goToLower_idem (s : Str) : goToLower (goToLower s) = goToLower s := by
  unfold goToLower
  rw [List.map_map]
  induction s with
  | nil => rfl
  | cons c t ih =>
      rw [List.map_cons, List.map_cons]
      exact congrArg₂ _ (goToLowerChar_idem c) ih

theorem mem_takeWhile_mem {α : Type} (p : α → Bool) (l : List α) (x : α)
    (h : x ∈ l.takeWhile p) : x ∈ l := by
  induction l with
  | nil => simp [List.takeWhile] at h
  | cons a t ih =>
      rw [List.takeWhile_cons] at h
      by_cases hp : p a = true
      · rw [if_pos hp] at h
        rcases List.mem_cons.mp h with rfl | h
        · exact List.mem_cons_self _ _
        · exact List.mem_cons_of_mem _ (ih h)
      · rw [if_neg hp] at h
        simp at h

theorem mem_dropWhile_mem {α : Type} (p : α → Bool) (l : List α) (x : α)
    (h : x ∈ l.dropWhile p) : x ∈ l := by
  induction l with
  | nil => simp [List.dropWhile] at h
  | cons a t ih =>
      rw [List.dropWhile_cons] at h
      by_cases hp : p a = true
      · rw [if_pos hp] at h
        exact List.mem_cons_of_mem _ (ih h)
      · rw [if_neg hp] at h
        exact h

theorem takeWhile_append_all {α : Type} (p : α → Bool) (l m : List α)
    (h : ∀ x ∈ l, p x = true) : (l ++ m).takeWhile p = l ++ m.takeWhile p := by
  induction l with
  | nil => rfl
  | cons a t ih =>
      rw [List.cons_append, List.takeWhile_cons,
        if_pos (h a (List.mem_cons_self a t)), List.cons_append,
        ih (fun x hx => h x (List.mem_cons_of_mem a hx))]

theorem dropWhile_append_all {α : Type} (p : α → Bool) (l m : List α)
    (h : ∀ x ∈ l, p x = true) : (l ++ m).dropWhile p = m.dropWhile p := by
  induction l with
  | nil => rfl
  | cons a t ih =>
      rw [List.cons_append, List.dropWhile_cons,
        if_pos (h a (List.mem_cons_self a t)),
        ih (fun x hx => h x (List.mem_cons_of_mem a hx))]

theorem dropWhile_append_stop {α : Type} (p : α → Bool) (l m : List α)
    (d : α) (t : List α) (h : l.dropWhile p = d :: t) :
    (l ++ m).dropWhile p = d :: (t ++ m) := by
  induction l with
  | nil => exact absurd h (by simp)
  | cons a tl ih =>
      rw [List.dropWhile_cons] at h
      rw [List.cons_append, List.dropWhile_cons]
      by_cases hp : p a = true
      · rw [if_pos hp] at h
        rw [if_pos hp]
        exact ih h
      · rw [if_neg hp] at h
        rw [if_neg hp]
        injection h with h1 h2
        subst h1
        subst h2
        rfl

theorem dropWhile_head_not {α : Type} (p : α → Bool) (l : List α) :
    l.dropWhile p = [] ∨
    ∃ d t, l.dropWhile p = d :: t ∧ p d = false := by
  induction l with
  | nil => exact Or.inl rfl
  | cons a t ih =>
      rw [List.dropWhile_cons]
      by_cases hp : p a = true
      · rw [if_pos hp]
        exact ih
      · rw [if_neg hp]
        exact Or.inr ⟨a, t, rfl, Bool.eq_false_iff.mpr hp⟩

theorem takeWhile_nil_cases {α : Type} (p : α → Bool) (l : List α)
    (h : l.takeWhile p = []) :
    l = [] ∨ ∃ d t, l = d :: t ∧ p d = false := by
  cases l with
  | nil => exact Or.inl rfl
  | cons a t =>
      rw [List.takeWhile_cons] at h
      by_cases hp : p a = true
      · rw [if_pos hp] at h
        simp at h
      · exact Or.inr ⟨a, t, rfl, Bool.eq_false_iff.mpr hp⟩

theorem ctlFree_sub (l m : Str) (h : ctlFree l = true)
    (hs : ∀ x ∈ m, x ∈ l) : ctlFree m = true := by
  unfold ctlFree at h ⊢
  rw [List.all_eq_true] at h ⊢
  exact fun x hx => h x (hs x hx)

theorem ctlFree_append (a b : Str) :
    ctlFree (a ++ b) = (ctlFree a && ctlFree b) := by
  unfold ctlFree
  exact List.all_append

theorem ctlFree_of_mem (l : Str) (h : ctlFree l = true) (x : Char)
    (hx : x ∈ l) : isCTLChar x = false := by
  unfold ctlFree at h
  rw [List.all_eq_true] at h
  simpa using h x hx

theorem ctlFree_of_all (l : Str) (h : ∀ x ∈ l, isCTLChar x = false) :
    ctlFree l = true := by
  unfold ctlFree
  rw [List.all_eq_true]
  intro x hx
  simpa using h x hx

theorem not_mem_of_sub {α : Type} (l m : List α) (c : α) (h : c ∉ l)
    (hs : ∀ x ∈ m, x ∈ l) : c ∉ m := fun hc => h (hs c hc)

/-- The shape disjunction every parsed URL satisfies: opaque-or-empty,
omitted-host, authority, or relative. -/
def urlShape (u : GoURL) : Prop :=
  (u.host = [] ∧ u.path = [] ∧ u.omitHost = false ∧
     (u.opq ≠ [] → u.scheme ≠ [] ∧ headIs '/' u.opq = false))
  ∨ (u.opq = [] ∧ u.scheme ≠ [] ∧ u.host = [] ∧ u.omitHost = true ∧
     headIs '/' u.path = true ∧ twoSlash u.path = false)
  ∨ (u.opq = [] ∧ u.omitHost = false ∧
     (u.path = [] ∨ headIs '/' u.path = true) ∧
     (u.scheme = [] → u.host = [] → u.path = []))
  ∨ (u.opq = [] ∧ u.scheme = [] ∧ u.host = [] ∧ u.omitHost = false ∧
     ((cutAtChar '/' u.path).1).contains ':' = false ∧
     (twoSlash u.path = false ∨ threeSlash u.path = true))

/-- Everything `url.Parse` guarantees about its output that `String()`
round-tripping relies on (fragment and raw query excluded, since the
assembly replaces the query). -/
structure URLInv (u : GoURL) : Prop where
  schemeChars : ∀ c ∈ u.scheme, isSchemeChar c = true
  schemeLower : goToLower u.scheme = u.scheme
  schemeAlpha : ∀ c t, u.scheme = c :: t → isAlphaChar c = true
  ctlOpq : ctlFree u.opq = true
  ctlHost : ctlFree u.host = true
  ctlPath : ctlFree u.path = true
  hashOpq : '#' ∉ u.opq
  hashHost : '#' ∉ u.host
  hashPath : '#' ∉ u.path
  qmOpq : '?' ∉ u.opq
  qmHost : '?' ∉ u.host
  qmPath : '?' ∉ u.path
  slashHost : '/' ∉ u.host
  shape : urlShape u

theorem getScheme_inv (s0 sch rest0 : Str)
    (h : getScheme s0 = some (sch, rest0)) :
    (∀ c ∈ sch, isSchemeChar c = true) ∧ goToLower sch = sch ∧
    (∀ c t, sch = c :: t → isAlphaChar c = true) ∧
    (∀ x ∈ rest0, x ∈ s0) := by
  cases s0 with
  | nil =>
      unfold getScheme at h
      simp only [Option.some.injEq, Prod.mk.injEq] at h
      obtain ⟨h1, h2⟩ := h
      subst h1
      subst h2
      exact ⟨by simp, rfl, fun c t hc => absurd hc (by simp), by simp⟩
  | cons c0 t0 =>
      replace h : (if isAlphaChar c0 = true then
          match (c0 :: t0).dropWhile isSchemeChar with
          | ':' :: r => some (goToLower ((c0 :: t0).takeWhile isSchemeChar), r)
          | _ => some (([] : Str), c0 :: t0)
        else if c0 = ':' then none
        else some (([] : Str), c0 :: t0)) = some (sch, rest0) := h
      by_cases ha : isAlphaChar c0 = true
      · rw [if_pos ha] at h
        split at h
        · rename_i r heq
          simp only [Option.some.injEq, Prod.mk.injEq] at h
          obtain ⟨h1, h2⟩ := h
          subst h1
          subst h2
          refine ⟨?_, goToLower_idem _, ?_, ?_⟩
          · intro c hc
            unfold goToLower at hc
            rcases List.mem_map.mp hc with ⟨x, hx, rfl⟩
            exact goToLowerChar_schemeChar x (List.mem_takeWhile_imp hx)
          · intro c t hct
            have hsc0 : isSchemeChar c0 = true := by
              simp [isSchemeChar, ha]
            rw [List.takeWhile_cons, if_pos hsc0] at hct
            unfold goToLower at hct
            rw [List.map_cons] at hct
            injection hct with hc1 _
            rw [← hc1]
            exact goToLowerChar_alphaChar c0 ha
          · intro x hx
            have hxm : x ∈ (c0 :: t0).dropWhile isSchemeChar := by
              rw [heq]
              exact List.mem_cons_of_mem _ hx
            exact mem_dropWhile_mem _ _ _ hxm
        · simp only [Option.some.injEq, Prod.mk.injEq] at h
          obtain ⟨h1, h2⟩ := h
          subst h1
          subst h2
          exact ⟨by simp, rfl, fun c t hc => absurd hc (by simp),
            fun x hx => hx⟩
      · rw [if_neg ha] at h
        by_cases hc0 : c0 = ':'
        · rw [if_pos hc0] at h
          cases h
        · rw [if_neg hc0] at h
          simp only [Option.some.injEq, Prod.mk.injEq] at h
          obtain ⟨h1, h2⟩ := h
          subst h1
          subst h2
          exact ⟨by simp, rfl, fun c t hc => absurd hc (by simp),
            fun x hx => hx⟩

theorem splitQuery_fst_inv (rest0 : Str) :
    '?' ∉ (splitQuery rest0).1 ∧ ∀ x ∈ (splitQuery rest0).1, x ∈ rest0 := by
  unfold splitQuery
  by_cases hf : hasForceQuery rest0 = true
  · rw [if_pos hf]
    constructor
    · unfold hasForceQuery at hf
      rw [Bool.and_eq_true] at hf
      have h2 := hf.2
      rw [Bool.not_eq_true'] at h2
      intro hc
      have hcc : (List.dropLast rest0).contains '?' = true := List.elem_iff.mpr hc
      rw [h2] at hcc
      cases hcc
    · intro x hx
      exact (List.dropLast_sublist rest0).mem hx
  · rw [if_neg hf]
    exact ⟨cutAtChar_fst_no '?' rest0, fun x hx => cutAtChar_fst_sub '?' rest0 x hx⟩

theorem parseAfterQuery_inv (sch : Str) (fq : Bool) (rq rest : Str)
    (u0 : GoURL) (h : parseAfterQuery sch fq rq rest = some u0) :
    u0.scheme = sch ∧
    (∀ x ∈ u0.opq, x ∈ rest) ∧ (∀ x ∈ u0.host, x ∈ rest) ∧
    (∀ x ∈ u0.path, x ∈ rest) ∧ '/' ∉ u0.host ∧ urlShape u0 := by
  unfold parseAfterQuery at h
  by_cases h1 : headIs '/' rest = true
  · rw [if_neg (fun hc => hc h1)] at h
    by_cases h2 : ((decide (sch ≠ []) || !threeSlash rest) && twoSlash rest)
        = true
    · rw [if_pos h2] at h
      simp only [Option.some.injEq] at h
      subst h
      refine ⟨rfl, ?_, ?_, ?_, ?_, ?_⟩
      · exact fun x hx => absurd hx (List.not_mem_nil x)
      · show ∀ x ∈ (rest.drop 2).takeWhile (fun c => decide (c ≠ '/')),
          x ∈ rest
        intro x hx
        exact List.drop_subset 2 rest (mem_takeWhile_mem _ _ _ hx)
      · show ∀ x ∈ (rest.drop 2).dropWhile (fun c => decide (c ≠ '/')),
          x ∈ rest
        intro x hx
        exact List.drop_subset 2 rest (mem_dropWhile_mem _ _ _ hx)
      · show '/' ∉ (rest.drop 2).takeWhile (fun c => decide (c ≠ '/'))
        intro hc
        have hp := List.mem_takeWhile_imp hc
        simp at hp
      · refine Or.inr (Or.inr (Or.inl ⟨rfl, rfl, ?_, ?_⟩))
        · show (rest.drop 2).dropWhile (fun c => decide (c ≠ '/')) = [] ∨
            headIs '/' ((rest.drop 2).dropWhile (fun c => decide (c ≠ '/')))
              = true
          rcases dropWhile_head_not (fun c => decide (c ≠ '/'))
              (rest.drop 2) with hnil | ⟨d, t, heq, hd⟩
          · exact Or.inl hnil
          · right
            rw [heq]
            have hd' : d = '/' := by simpa using hd
            subst hd'
            rfl
        · intro hs hh
          replace hs : sch = [] := hs
          replace hh : (rest.drop 2).takeWhile (fun c => decide (c ≠ '/'))
              = [] := hh
          rw [Bool.and_eq_true] at h2
          have h3 := h2.1
          rw [hs] at h3
          have h4 : (!threeSlash rest) = true := by simpa using h3
          rw [Bool.not_eq_true'] at h4
          unfold threeSlash at h4
          rw [h2.2, Bool.true_and] at h4
          rcases takeWhile_nil_cases _ _ hh with hr2 | ⟨d, t, hr2, hd⟩
          · show (rest.drop 2).dropWhile (fun c => decide (c ≠ '/')) = []
            rw [hr2]
            rfl
          · have hd' : d = '/' := by simpa using hd
            subst hd'
            rw [hr2] at h4
            exact absurd h4 (by simp [headIs])
    · rw [if_neg h2] at h
      simp only [Option.some.injEq] at h
      subst h
      have h2f : ((decide (sch ≠ []) || !threeSlash rest) && twoSlash rest)
          = false := Bool.eq_false_iff.mpr h2
      refine ⟨rfl, ?_, ?_, ?_, ?_, ?_⟩
      · exact fun x hx => absurd hx (List.not_mem_nil x)
      · exact fun x hx => absurd hx (List.not_mem_nil x)
      · exact fun x hx => hx
      · exact List.not_mem_nil '/'
      · by_cases hsch : sch = []
        · refine Or.inr (Or.inr (Or.inr ⟨rfl, hsch, rfl, ?_, ?_, ?_⟩))
          · show decide (sch ≠ []) = false
            rw [hsch]
            decide
          · cases rest with
            | nil => cases h1
            | cons r0 rt =>
                have hr0 : r0 = '/' := by simpa [headIs] using h1
                subst hr0
                show ((cutAtChar '/' ('/' :: rt)).1).contains ':' = false
                rw [cutAtChar_cons_eq]
                rfl
          · rw [hsch] at h2f
            cases ht2 : twoSlash rest with
            | false => exact Or.inl rfl
            | true =>
                cases ht3 : threeSlash rest with
                | true => exact Or.inr rfl
                | false =>
                    rw [ht2, ht3] at h2f
                    simp at h2f
        · refine Or.inr (Or.inl ⟨rfl, hsch, rfl, ?_, h1, ?_⟩)
          · show decide (sch ≠ []) = true
            exact decide_eq_true hsch
          · rw [decide_eq_true hsch] at h2f
            simpa using h2f
  · rw [if_pos h1] at h
    by_cases hsch : sch = []
    · rw [if_neg (fun hc => hc hsch)] at h
      by_cases hcol : ((cutAtChar '/' rest).1).contains ':' = true
      · rw [if_pos hcol] at h
        cases h
      · rw [if_neg hcol] at h
        simp only [Option.some.injEq] at h
        subst h
        refine ⟨hsch.symm, ?_, ?_, ?_, ?_, ?_⟩
        · exact fun x hx => absurd hx (List.not_mem_nil x)
        · exact fun x hx => absurd hx (List.not_mem_nil x)
        · exact fun x hx => hx
        · exact List.not_mem_nil '/'
        · refine Or.inr (Or.inr (Or.inr ⟨rfl, rfl, rfl, rfl,
            Bool.eq_false_iff.mpr hcol, Or.inl ?_⟩))
          show twoSlash rest = false
          unfold twoSlash
          rw [Bool.eq_false_iff.mpr h1]
          rfl
    · rw [if_pos hsch] at h
      simp only [Option.some.injEq] at h
      subst h
      refine ⟨rfl, ?_, ?_, ?_, ?_, ?_⟩
      · exact fun x hx => hx
      · exact fun x hx => absurd hx (List.not_mem_nil x)
      · exact fun x hx => absurd hx (List.not_mem_nil x)
      · exact List.not_mem_nil '/'
      · exact Or.inl ⟨rfl, rfl, rfl,
          fun _ => ⟨hsch, Bool.eq_false_iff.mpr h1⟩⟩

theorem parseNoFrag_inv (s0 : Str) (u0 : GoURL)
    (h : parseNoFrag s0 = some u0) (hhash : '#' ∉ s0) :
    URLInv u0 := by
  unfold parseNoFrag at h
  by_cases hctl : ctlFree s0 = true
  · rw [if_neg (fun hc => hc hctl)] at h
    by_cases hstar : s0 = ['*']
    · rw [if_pos hstar] at h
      simp only [Option.some.injEq] at h
      subst h
      exact ⟨by simp, rfl, fun c t hc => absurd hc (by simp), by decide,
        by decide, by decide, by decide, by decide, by decide, by decide,
        by decide, by decide, by decide,
        Or.inr (Or.inr (Or.inr ⟨rfl, rfl, rfl, rfl, by decide,
          Or.inl (by decide)⟩))⟩
    · rw [if_neg hstar] at h
      cases hgs : getScheme s0 with
      | none =>
          rw [hgs] at h
          cases h
      | some pr =>
          obtain ⟨sch, rest0⟩ := pr
          rw [hgs] at h
          replace h : parseAfterQuery sch (splitQuery rest0).2.2
              (splitQuery rest0).2.1 (splitQuery rest0).1 = some u0 := h
          obtain ⟨hgs1, hgs2, hgs3, hgs4⟩ := getScheme_inv s0 sch rest0 hgs
          obtain ⟨hq, hsub⟩ := splitQuery_fst_inv rest0
          obtain ⟨husch, hopq, hhost, hpath, hslash, hshape⟩ :=
            parseAfterQuery_inv _ _ _ _ _ h
          have hsubs0 : ∀ x ∈ (splitQuery rest0).1, x ∈ s0 :=
            fun x hx => hgs4 x (hsub x hx)
          refine ⟨?_, ?_, ?_, ?_, ?_, ?_, ?_, ?_, ?_, ?_, ?_, ?_, hslash,
            hshape⟩
          · rw [husch]
            exact hgs1
          · rw [husch]
            exact hgs2
          · rw [husch]
            exact hgs3
          · exact ctlFree_sub s0 _ hctl (fun x hx => hsubs0 x (hopq x hx))
          · exact ctlFree_sub s0 _ hctl (fun x hx => hsubs0 x (hhost x hx))
          · exact ctlFree_sub s0 _ hctl (fun x hx => hsubs0 x (hpath x hx))
          · exact not_mem_of_sub s0 _ '#' hhash
              (fun x hx => hsubs0 x (hopq x hx))
          · exact not_mem_of_sub s0 _ '#' hhash
              (fun x hx => hsubs0 x (hhost x hx))
          · exact not_mem_of_sub s0 _ '#' hhash
              (fun x hx => hsubs0 x (hpath x hx))
          · exact not_mem_of_sub _ _ '?' hq hopq
          · exact not_mem_of_sub _ _ '?' hq hhost
          · exact not_mem_of_sub _ _ '?' hq hpath
  · rw [if_pos hctl] at h
    cases h

theorem parseURL_inv (s : Str) (u : GoURL) (h : parseURL s = some u) :
    URLInv u := by
  unfold parseURL at h
  cases hpf : parseNoFrag (cutAtChar '#' s).1 with
  | none =>
      rw [hpf] at h
      cases h
  | some u0 =>
      rw [hpf] at h
      simp only [Option.some.injEq] at h
      subst h
      have hinv := parseNoFrag_inv _ _ hpf (cutAtChar_fst_no '#' s)
      exact ⟨hinv.schemeChars, hinv.schemeLower, hinv.schemeAlpha,
        hinv.ctlOpq, hinv.ctlHost, hinv.ctlPath, hinv.hashOpq, hinv.hashHost,
        hinv.hashPath, hinv.qmOpq, hinv.qmHost, hinv.qmPath, hinv.slashHost,
        hinv.shape⟩

/-! Forward evaluation of `parse` on `String()` output. -/

theorem ctlFree_cons (c : Char) (t : Str) :
    ctlFree (c :: t) = (!isCTLChar c && ctlFree t) := rfl

theorem cutHash (P frag : Str) (h : '#' ∉ P) :
    cutAtChar '#' (P ++ (if frag ≠ [] then '#' :: frag else [])) =
      (P, frag) := by
  by_cases hf : frag = []
  · rw [if_neg (fun hc => hc hf), List.append_nil, cutAtChar_no '#' P h, hf]
  · rw [if_pos hf]
    exact cutAtChar_append_mid '#' P frag h

theorem getScheme_colon (sch r : Str) (hne : sch ≠ [])
    (hchars : ∀ c ∈ sch, isSchemeChar c = true)
    (hlower : goToLower sch = sch)
    (halpha : ∀ c t, sch = c :: t → isAlphaChar c = true) :
    getScheme (sch ++ ':' :: r) = some (sch, r) := by
  cases sch with
  | nil => exact absurd rfl hne
  | cons c0 t0 =>
      have ha : isAlphaChar c0 = true := halpha c0 t0 rfl
      show (if isAlphaChar c0 = true then
          match ((c0 :: t0) ++ ':' :: r).dropWhile isSchemeChar with
          | ':' :: r' =>
              some (goToLower (((c0 :: t0) ++ ':' :: r).takeWhile
                isSchemeChar), r')
          | _ => some (([] : Str), (c0 :: t0) ++ ':' :: r)
        else if c0 = ':' then none
        else some (([] : Str), (c0 :: t0) ++ ':' :: r)) = some (c0 :: t0, r)
      rw [if_pos ha,
        dropWhile_append_all isSchemeChar (c0 :: t0) (':' :: r) hchars,
        List.dropWhile_cons, if_neg (by decide),
        takeWhile_append_all isSchemeChar (c0 :: t0) (':' :: r) hchars,
        List.takeWhile_cons, if_neg (by decide), List.append_nil, hlower]
      rfl

theorem getScheme_nohead (c0 : Char) (t0 : Str) (ha : isAlphaChar c0 = false)
    (hc : c0 ≠ ':') : getScheme (c0 :: t0) = some ([], c0 :: t0) := by
  show (if isAlphaChar c0 = true then
      match (c0 :: t0).dropWhile isSchemeChar with
      | ':' :: r' =>
          some (goToLower ((c0 :: t0).takeWhile isSchemeChar), r')
      | _ => some (([] : Str), c0 :: t0)
    else if c0 = ':' then none
    else some (([] : Str), c0 :: t0)) = some ([], c0 :: t0)
  rw [if_neg (by simp [ha]), if_neg hc]

theorem getScheme_stop (c0 : Char) (t0 : Str) (ha : isAlphaChar c0 = true)
    (hstop : ∀ d r, (c0 :: t0).dropWhile isSchemeChar = d :: r → d ≠ ':') :
    getScheme (c0 :: t0) = some ([], c0 :: t0) := by
  show (if isAlphaChar c0 = true then
      match (c0 :: t0).dropWhile isSchemeChar with
      | ':' :: r' =>
          some (goToLower ((c0 :: t0).takeWhile isSchemeChar), r')
      | _ => some (([] : Str), c0 :: t0)
    else if c0 = ':' then none
    else some (([] : Str), c0 :: t0)) = some ([], c0 :: t0)
  rw [if_pos ha]
  split
  · rename_i r heq
    exact absurd rfl (hstop ':' r heq)
  · rfl

theorem getScheme_relative (path q' : Str)
    (hcol : ((cutAtChar '/' path).1).contains ':' = false)
    (hq : '?' ∉ q') :
    getScheme (path ++ '?' :: q') = some ([], path ++ '?' :: q') := by
  cases path with
  | nil => exact getScheme_nohead '?' q' (by decide) (by decide)
  | cons c0 t0 =>
      rw [List.cons_append]
      by_cases ha : isAlphaChar c0 = true
      · apply getScheme_stop c0 (t0 ++ '?' :: q') ha
        intro d r heq
        rcases dropWhile_head_not isSchemeChar (c0 :: t0) with
          hnil | ⟨e, s, hes, hpe⟩
        · have hall : ∀ x ∈ c0 :: t0, isSchemeChar x = true :=
            List.dropWhile_eq_nil_iff.mp hnil
          have hrw : (c0 :: (t0 ++ '?' :: q')).dropWhile isSchemeChar
              = '?' :: q' := by
            rw [← List.cons_append,
              dropWhile_append_all _ _ _ hall,
              List.dropWhile_cons, if_neg (by decide)]
          rw [hrw] at heq
          injection heq with h1 _
          subst h1
          decide
        · have hrw : (c0 :: (t0 ++ '?' :: q')).dropWhile isSchemeChar
              = e :: (s ++ '?' :: q') := by
            rw [← List.cons_append]
            exact dropWhile_append_stop _ _ _ _ _ hes
          rw [hrw] at heq
          injection heq with h1 _
          subst h1
          intro hce
          subst hce
          have htw : '/' ∉ (c0 :: t0).takeWhile isSchemeChar :=
            fun hm => absurd rfl
              ((isSchemeChar_facts '/' (List.mem_takeWhile_imp hm)).2.2.2.1)
          have hsplit : c0 :: t0
              = (c0 :: t0).takeWhile isSchemeChar ++ ':' :: s := by
            rw [← hes]
            exact (List.takeWhile_append_dropWhile _ _).symm
          have hmem : ':' ∈ (cutAtChar '/' (c0 :: t0)).1 := by
            rw [hsplit, cutAtChar_append_left '/' _ _ htw]
            show ':' ∈ (c0 :: t0).takeWhile isSchemeChar ++
              (cutAtChar '/' (':' :: s)).1
            rw [cutAtChar_cons_ne '/' ':' s (by decide)]
            exact List.mem_append_right _ (List.mem_cons_self _ _)
          have hcc : ((cutAtChar '/' (c0 :: t0)).1).contains ':' = true :=
            List.elem_iff.mpr hmem
          rw [hcol] at hcc
          cases hcc
      · have hc : c0 ≠ ':' := by
          intro hc0
          subst hc0
          rw [cutAtChar_cons_ne '/' ':' t0 (by decide)] at hcol
          simp at hcol
        exact getScheme_nohead c0 (t0 ++ '?' :: q')
          (Bool.eq_false_iff.mpr ha) hc

theorem splitQuery_mid (X q' : Str) (hX : '?' ∉ X) (hne : q' ≠ [])
    (hq : '?' ∉ q') : splitQuery (X ++ '?' :: q') = (X, q', false) := by
  obtain ⟨a, ha⟩ : ∃ a, q'.getLast? = some a := by
    cases hgl : q'.getLast? with
    | none => exact absurd (List.getLast?_eq_none_iff.mp hgl) hne
    | some a => exact ⟨a, rfl⟩
  have hane : a ≠ '?' := fun hc => hq (hc ▸ getLast?_mem' q' a ha)
  have h1 : ('?' :: q').getLast? = some a := by
    rw [show ('?' :: q' : Str) = ['?'] ++ q' from rfl, List.getLast?_append,
      ha]
    rfl
  have hlast : (X ++ '?' :: q').getLast? = some a := by
    rw [List.getLast?_append, h1]
    rfl
  have hforce : hasForceQuery (X ++ '?' :: q') = false := by
    unfold hasForceQuery
    rw [hlast,
      show ((some a == some '?') : Bool) = false from
        beq_eq_false_iff_ne.mpr (fun hc => hane (Option.some.inj hc))]
    rfl
  unfold splitQuery
  rw [if_neg (by simp [hforce]), cutAtChar_append_mid '?' X q' hX]

theorem parseNoFrag_eval (s0 sch rest0 rest rq : Str) (fq : Bool)
    (hctl : ctlFree s0 = true) (hstar : s0 ≠ ['*'])
    (hgs : getScheme s0 = some (sch, rest0))
    (hsq : splitQuery rest0 = (rest, rq, fq)) :
    parseNoFrag s0 = parseAfterQuery sch fq rq rest := by
  unfold parseNoFrag
  rw [if_neg (fun hc => hc hctl), if_neg hstar, hgs]
  show parseAfterQuery sch (splitQuery rest0).2.2 (splitQuery rest0).2.1
      (splitQuery rest0).1 = parseAfterQuery sch fq rq rest
  rw [hsq]

theorem parseNoFrag_schemeX (sch X q' : Str)
    (hchars : ∀ c ∈ sch, isSchemeChar c = true)
    (hlower : goToLower sch = sch)
    (halpha : ∀ c t, sch = c :: t → isAlphaChar c = true)
    (hctlX : ctlFree X = true) (hctlq : ctlFree q' = true)
    (hXq : '?' ∉ X) (hne : q' ≠ []) (hq : '?' ∉ q')
    (hns : sch = [] →
      getScheme (X ++ '?' :: q') = some ([], X ++ '?' :: q')) :
    parseNoFrag ((if sch ≠ [] then sch ++ [':'] else []) ++ (X ++ '?' :: q'))
      = parseAfterQuery sch false q' X := by
  have hctlq2 : ctlFree ('?' :: q') = true := by
    rw [ctlFree_cons, hctlq]
    decide
  have hctlY : ctlFree (X ++ '?' :: q') = true := by
    rw [ctlFree_append, hctlX, hctlq2]
    rfl
  have hqmem : '?' ∈ X ++ '?' :: q' :=
    List.mem_append_right _ (List.mem_cons_self _ _)
  have hstarY : X ++ '?' :: q' ≠ ['*'] := by
    intro hc
    rw [hc] at hqmem
    simp at hqmem
  by_cases hsch : sch = []
  · subst hsch
    rw [if_neg (fun hc => hc rfl), List.nil_append]
    exact parseNoFrag_eval _ [] (X ++ '?' :: q') X q' false hctlY hstarY
      (hns rfl) (splitQuery_mid X q' hXq hne hq)
  · rw [if_pos hsch, List.append_assoc, List.singleton_append]
    have hctlS : ctlFree (sch ++ ':' :: (X ++ '?' :: q')) = true := by
      rw [ctlFree_append,
        ctlFree_of_all _ (fun x hx =>
          (isSchemeChar_facts x (hchars x hx)).2.2.2.2),
        ctlFree_cons, hctlY]
      decide
    have hstarS : sch ++ ':' :: (X ++ '?' :: q') ≠ ['*'] := by
      intro hc
      have hm : '?' ∈ sch ++ ':' :: (X ++ '?' :: q') :=
        List.mem_append_right _ (List.mem_cons_of_mem _ hqmem)
      rw [hc] at hm
      simp at hm
    exact parseNoFrag_eval _ sch (X ++ '?' :: q') X q' false hctlS hstarS
      (getScheme_colon sch (X ++ '?' :: q') hsch hchars hlower halpha)
      (splitQuery_mid X q' hXq hne hq)

theorem paq_opaque (sch q' X : Str) (hsch : sch ≠ [])
    (hX : headIs '/' X = false) :
    parseAfterQuery sch false q' X =
      some {scheme := sch, opq := X, rawQuery := q', forceQuery := false} := by
  unfold parseAfterQuery
  rw [if_pos (by simp [hX]), if_pos hsch]

theorem paq_relative (q' X : Str) (hX : headIs '/' X = false)
    (hcol : ((cutAtChar '/' X).1).contains ':' = false) :
    parseAfterQuery [] false q' X =
      some {path := X, rawQuery := q', forceQuery := false} := by
  unfold parseAfterQuery
  rw [if_pos (by simp [hX]), if_neg (fun hc => hc rfl),
    if_neg (by rw [hcol]; exact Bool.false_ne_true)]

theorem paq_authority (sch q' r2 : Str)
    (hcond : (decide (sch ≠ []) || !threeSlash ('/' :: '/' :: r2)) = true) :
    parseAfterQuery sch false q' ('/' :: '/' :: r2) =
      some {scheme := sch,
            host := r2.takeWhile (fun c => decide (c ≠ '/')),
            path := r2.dropWhile (fun c => decide (c ≠ '/')),
            rawQuery := q', forceQuery := false} := by
  have hh : headIs '/' ('/' :: '/' :: r2) = true := rfl
  unfold parseAfterQuery
  rw [if_neg (fun hc => hc hh), if_pos (by rw [hcond]; rfl)]
  rfl

theorem paq_else (sch q' X : Str) (hX : headIs '/' X = true)
    (hcond : ((decide (sch ≠ []) || !threeSlash X) && twoSlash X) = false) :
    parseAfterQuery sch false q' X =
      some {scheme := sch, omitHost := sch ≠ [], path := X,
            rawQuery := q', forceQuery := false} := by
  unfold parseAfterQuery
  rw [if_neg (fun hc => hc hX),
    if_neg (by rw [hcond]; exact Bool.false_ne_true)]

theorem hash_not_mem_front (sch X q' : Str) (hs : '#' ∉ sch) (hX : '#' ∉ X)
    (hq : '#' ∉ q') :
    '#' ∉ (if sch ≠ [] then sch ++ [':'] else []) ++ (X ++ '?' :: q') := by
  intro hm
  rcases List.mem_append.mp hm with h1 | h2
  · by_cases hsch : sch = []
    · rw [if_neg (fun hc => hc hsch)] at h1
      simp at h1
    · rw [if_pos hsch] at h1
      rcases List.mem_append.mp h1 with h3 | h4
      · exact hs h3
      · simp at h4
  · rcases List.mem_append.mp h2 with h3 | h4
    · exact hX h3
    · rcases List.mem_cons.mp h4 with h5 | h6
      · exact absurd h5 (by decide)
      · exact hq h6

theorem slash2_free (c : Char) (host path : Str) (h1 : c ∉ host)
    (h2 : c ∉ path) (hc : c ≠ '/') :
    c ∉ ('/' :: '/' :: (host ++ path)) := by
  intro hm
  rcases List.mem_cons.mp hm with h | hm2
  · exact hc h
  · rcases List.mem_cons.mp hm2 with h | hm3
    · exact hc h
    · rcases List.mem_append.mp hm3 with h | h
      · exact h1 h
      · exact h2 h

theorem slash2_ctlFree (host path : Str) (h1 : ctlFree host = true)
    (h2 : ctlFree path = true) :
    ctlFree ('/' :: '/' :: (host ++ path)) = true := by
  rw [ctlFree_cons, ctlFree_cons, ctlFree_append, h1, h2]
  decide

theorem headIs_cases (c : Char) (s : Str) (h : headIs c s = true) :
    ∃ t, s = c :: t := by
  cases s with
  | nil => cases h
  | cons a t =>
      have ha : a = c := by simpa [headIs] using h
      subst ha
      exact ⟨t, rfl⟩

theorem parseURL_eval (raw P frag : Str) (u0 : GoURL)
    (hcut : cutAtChar '#' raw = (P, frag))
    (hpf : parseNoFrag P = some u0) :
    parseURL raw = some {u0 with fragment := frag} := by
  unfold parseURL
  rw [hcut, show ((P, frag).1 : Str) = P from rfl,
    show ((P, frag).2 : Str) = frag from rfl, hpf]

theorem urlToString_opq (sch opq : Str) (fq : Bool) (q' frag : Str)
    (ho : opq ≠ []) (hne : q' ≠ []) :
    urlToString ⟨sch, opq, [], false, fq, [], q', frag⟩ =
      ((if sch ≠ [] then sch ++ [':'] else []) ++ (opq ++ '?' :: q')) ++
        (if frag ≠ [] then '#' :: frag else []) := by
  simp [urlToString, ho, hne, List.append_assoc]

theorem urlToString_emptyMain (sch : Str) (fq : Bool) (q' frag : Str)
    (hne : q' ≠ []) :
    urlToString ⟨sch, [], [], false, fq, [], q', frag⟩ =
      ((if sch ≠ [] then sch ++ [':'] else []) ++
        (([] : Str) ++ '?' :: q')) ++
        (if frag ≠ [] then '#' :: frag else []) := by
  simp [urlToString, hne, cutAtChar, List.append_assoc]

theorem urlToString_omitHost (sch : Str) (fq : Bool) (path q' frag : Str)
    (hsch : sch ≠ []) (hne : q' ≠ []) :
    urlToString ⟨sch, [], [], true, fq, path, q', frag⟩ =
      ((if sch ≠ [] then sch ++ [':'] else []) ++ (path ++ '?' :: q')) ++
        (if frag ≠ [] then '#' :: frag else []) := by
  simp [urlToString, hsch, hne, List.append_assoc]

theorem urlToString_authority (sch host : Str) (fq : Bool)
    (path q' frag : Str) (hd : sch ≠ [] ∨ host ≠ [])
    (hhp : host ≠ [] ∨ path ≠ [])
    (hp : path = [] ∨ headIs '/' path = true) (hne : q' ≠ []) :
    urlToString ⟨sch, [], host, false, fq, path, q', frag⟩ =
      ((if sch ≠ [] then sch ++ [':'] else []) ++
        (('/' :: '/' :: (host ++ path)) ++ '?' :: q')) ++
        (if frag ≠ [] then '#' :: frag else []) := by
  have hslash : ¬(path ≠ [] ∧ ¬headIs '/' path = true ∧ host ≠ []) := by
    rcases hp with h | h
    · exact fun hc => hc.1 h
    · exact fun hc => hc.2.1 h
  have hstr : str "//" = ['/', '/'] := rfl
  simp [urlToString, hd, hhp, hslash, hne, hstr, List.append_assoc]
  intro hpne hhead
  rcases hp with h | h
  · exact absurd h hpne
  · rw [h] at hhead
    cases hhead

theorem urlToString_relative (fq : Bool) (path q' frag : Str)
    (hcol : ((cutAtChar '/' path).1).contains ':' = false) (hne : q' ≠ []) :
    urlToString ⟨[], [], [], false, fq, path, q', frag⟩ =
      ((if ([] : Str) ≠ [] then ([] : Str) ++ [':'] else []) ++
        (path ++ '?' :: q')) ++
        (if frag ≠ [] then '#' :: frag else []) := by
  simp [urlToString, hcol, hne, List.append_assoc]
  intro hm
  have hcol2 : List.elem ':' (cutAtChar '/' path).1 = false := hcol
  exact absurd (List.elem_iff.mpr hm)
    (by rw [hcol2]; exact Bool.false_ne_true)

theorem not_mem_append' {α : Type} (a b : List α) (c : α) (h1 : c ∉ a)
    (h2 : c ∉ b) : c ∉ a ++ b := fun hm =>
  (List.mem_append.mp hm).elim h1 h2

theorem slashSlashNotMem (c : Char) (l : Str) (h : c ∉ l) (hc : c ≠ '/') :
    c ∉ ('/' :: '/' :: l) := by
  intro hm
  rcases List.mem_cons.mp hm with h1 | hm2
  · exact hc h1
  · rcases List.mem_cons.mp hm2 with h1 | h2
    · exact hc h1
    · exact h h2

theorem slash2_ctlFree' (l : Str) (h : ctlFree l = true) :
    ctlFree ('/' :: '/' :: l) = true := by
  rw [ctlFree_cons, ctlFree_cons, h]
  decide

theorem takeWhile_host (host path : Str) (hsh : '/' ∉ host)
    (hp : path = [] ∨ headIs '/' path = true) :
    (host ++ path).takeWhile (fun c => decide (c ≠ '/')) = host := by
  have hallh : ∀ x ∈ host, (fun c => decide (c ≠ '/')) x = true :=
    fun x hx => decide_eq_true (fun hc => hsh (hc ▸ hx))
  rw [takeWhile_append_all _ _ _ hallh]
  rcases hp with h | h
  · rw [h]
    simp
  · obtain ⟨pt, rfl⟩ := headIs_cases '/' path h
    rw [List.takeWhile_cons, if_neg (by decide)]
    exact List.append_nil host

theorem dropWhile_hostPath (host path : Str) (hsh : '/' ∉ host)
    (hp : path = [] ∨ headIs '/' path = true) :
    (host ++ path).dropWhile (fun c => decide (c ≠ '/')) = path := by
  have hallh : ∀ x ∈ host, (fun c => decide (c ≠ '/')) x = true :=
    fun x hx => decide_eq_true (fun hc => hsh (hc ▸ hx))
  rw [dropWhile_append_all _ _ _ hallh]
  rcases hp with h | h
  · rw [h]
    rfl
  · obtain ⟨pt, rfl⟩ := headIs_cases '/' path h
    rw [List.dropWhile_cons, if_neg (by decide)]

theorem roundtrip_empty (sch : Str) (fq : Bool) (q' frag : Str)
    (hchars : ∀ c ∈ sch, isSchemeChar c = true)
    (hlower : goToLower sch = sch)
    (halpha : ∀ c t, sch = c :: t → isAlphaChar c = true)
    (hshash : '#' ∉ sch)
    (hne : q' ≠ []) (hq : '?' ∉ q') (hh : '#' ∉ q')
    (hctlq : ctlFree q' = true) :
    parseURL (urlToString ⟨sch, [], [], false, fq, [], q', frag⟩) =
      some ⟨sch, [], [], false, false, [], q', frag⟩ := by
  rw [urlToString_emptyMain sch fq q' frag hne]
  have hcut := cutHash _ frag
    (hash_not_mem_front sch [] q' hshash (by simp) hh)
  have hpf := parseNoFrag_schemeX sch [] q' hchars hlower halpha (by decide)
    hctlq (by simp) hne hq
    (fun _ => by
      rw [List.nil_append]
      exact getScheme_nohead '?' q' (by decide) (by decide))
  by_cases hsch : sch = []
  · subst hsch
    have hpaq := paq_relative q' [] rfl (by decide)
    rw [parseURL_eval _ _ frag _ hcut (hpf.trans hpaq)]
  · have hpaq := paq_opaque sch q' [] hsch rfl
    rw [parseURL_eval _ _ frag _ hcut (hpf.trans hpaq)]

theorem parse_roundtrip (u : GoURL) (hinv : URLInv u) (q' : Str)
    (hne : q' ≠ []) (hq : '?' ∉ q') (hh : '#' ∉ q')
    (hctlq : ctlFree q' = true) :
    parseURL (urlToString {u with rawQuery := q'}) =
      some {u with rawQuery := q', forceQuery := false} := by
  obtain ⟨hchars, hlower, halpha, hctlo, hctlh, hctlp, hho, hhh, hhp,
    hqo, hqh, hqp, hsh, hshape⟩ := hinv
  obtain ⟨sch, opq, host, omh, fq, path, rq, frag⟩ := u
  show parseURL (urlToString ⟨sch, opq, host, omh, fq, path, q', frag⟩) =
    some ⟨sch, opq, host, omh, false, path, q', frag⟩
  have hshash : '#' ∉ sch := fun hm => absurd rfl
    ((isSchemeChar_facts '#' (hchars '#' hm)).1)
  rcases hshape with ⟨hH, hP, hO, himp⟩ | ⟨hOq, hS, hH, hOm, hhead, h2s⟩ |
    ⟨hOq, hOm, hp, himp3⟩ | ⟨hOq, hS, hH, hOm, hcol, h23⟩
  · -- opaque or empty
    replace hH : host = [] := hH
    replace hP : path = [] := hP
    replace hO : omh = false := hO
    subst hH
    subst hP
    subst hO
    by_cases hopq : opq = []
    · subst hopq
      exact roundtrip_empty sch fq q' frag hchars hlower halpha hshash
        hne hq hh hctlq
    · obtain ⟨hsch, hhd⟩ := himp hopq
      rw [urlToString_opq sch opq fq q' frag hopq hne]
      have hcut := cutHash _ frag (hash_not_mem_front sch opq q' hshash
        hho hh)
      have hpf := parseNoFrag_schemeX sch opq q' hchars hlower halpha hctlo
        hctlq hqo hne hq (fun hc => absurd hc hsch)
      have hpaq := paq_opaque sch q' opq hsch hhd
      rw [parseURL_eval _ _ frag _ hcut (hpf.trans hpaq)]
  · -- omitted host
    replace hOq : opq = [] := hOq
    replace hS : sch ≠ [] := hS
    replace hH : host = [] := hH
    replace hOm : omh = true := hOm
    replace hhead : headIs '/' path = true := hhead
    replace h2s : twoSlash path = false := h2s
    subst hOq
    subst hH
    subst hOm
    rw [urlToString_omitHost sch fq path q' frag hS hne]
    have hcut := cutHash _ frag (hash_not_mem_front sch path q' hshash
      hhp hh)
    have hpf := parseNoFrag_schemeX sch path q' hchars hlower halpha hctlp
      hctlq hqp hne hq (fun hc => absurd hc hS)
    have hpaq := paq_else sch q' path hhead
      (by rw [h2s]; exact Bool.and_false _)
    rw [parseURL_eval _ _ frag _ hcut (hpf.trans hpaq)]
    have hd : (decide (sch ≠ []) : Bool) = true := decide_eq_true hS
    rw [hd]
  · -- authority
    replace hOq : opq = [] := hOq
    replace hOm : omh = false := hOm
    replace hp : path = [] ∨ headIs '/' path = true := hp
    replace himp3 : sch = [] → host = [] → path = [] := himp3
    subst hOq
    subst hOm
    by_cases hhost : host = []
    · subst hhost
      by_cases hpath : path = []
      · subst hpath
        exact roundtrip_empty sch fq q' frag hchars hlower halpha hshash
          hne hq hh hctlq
      · have hsch : sch ≠ [] := fun hc => hpath (himp3 hc rfl)
        have hhead : headIs '/' path = true := by
          rcases hp with h | h
          · exact absurd h hpath
          · exact h
        rw [urlToString_authority sch [] fq path q' frag (Or.inl hsch)
          (Or.inr hpath) hp hne, List.nil_append]
        obtain ⟨pt, rfl⟩ := headIs_cases '/' path hhead
        have hcut := cutHash _ frag (hash_not_mem_front sch
          ('/' :: '/' :: '/' :: pt) q' hshash
          (slashSlashNotMem '#' ('/' :: pt) hhp (by decide)) hh)
        have hpf := parseNoFrag_schemeX sch ('/' :: '/' :: '/' :: pt) q'
          hchars hlower halpha (slash2_ctlFree' ('/' :: pt) hctlp) hctlq
          (slashSlashNotMem '?' ('/' :: pt) hqp (by decide)) hne hq
          (fun _ => by
            rw [List.cons_append]
            exact getScheme_nohead '/' _ (by decide) (by decide))
        have hpaq := paq_authority sch q' ('/' :: pt)
          (by rw [decide_eq_true hsch]; rfl)
        rw [parseURL_eval _ _ frag _ hcut (hpf.trans hpaq)]
        rw [show (('/' :: pt : Str).takeWhile (fun c => decide (c ≠ '/')))
            = [] from by rw [List.takeWhile_cons, if_neg (by decide)],
          show (('/' :: pt : Str).dropWhile (fun c => decide (c ≠ '/')))
            = '/' :: pt from by rw [List.dropWhile_cons, if_neg (by decide)]]
    · rw [urlToString_authority sch host fq path q' frag (Or.inr hhost)
        (Or.inl hhost) hp hne]
      have hcut := cutHash _ frag (hash_not_mem_front sch
        ('/' :: '/' :: (host ++ path)) q' hshash
        (slashSlashNotMem '#' (host ++ path)
          (not_mem_append' host path '#' hhh hhp) (by decide)) hh)
      have hpf := parseNoFrag_schemeX sch ('/' :: '/' :: (host ++ path)) q'
        hchars hlower halpha
        (slash2_ctlFree' (host ++ path)
          (by rw [ctlFree_append, hctlh, hctlp]; rfl)) hctlq
        (slashSlashNotMem '?' (host ++ path)
          (not_mem_append' host path '?' hqh hqp) (by decide)) hne hq
        (fun _ => by
          rw [List.cons_append, List.cons_append]
          exact getScheme_nohead '/' _ (by decide) (by decide))
      have hcond : (decide (sch ≠ []) ||
          !threeSlash ('/' :: '/' :: (host ++ path))) = true := by
        by_cases hsch : sch = []
        · have h3 : threeSlash ('/' :: '/' :: (host ++ path)) = false := by
            cases host with
            | nil => exact absurd rfl hhost
            | cons h0 ht =>
                have h0ne : h0 ≠ '/' :=
                  fun hc => hsh (hc ▸ List.mem_cons_self _ _)
                unfold threeSlash
                rw [show (('/' :: '/' :: ((h0 :: ht) ++ path) : Str).drop 2)
                    = (h0 :: ht) ++ path from rfl, List.cons_append,
                  show headIs '/' (h0 :: (ht ++ path)) = false from
                    by simp [headIs, h0ne]]
                exact Bool.and_false _
          rw [h3, hsch]
          rfl
        · rw [decide_eq_true hsch]
          rfl
      have hpaq := paq_authority sch q' (host ++ path) hcond
      rw [parseURL_eval _ _ frag _ hcut (hpf.trans hpaq)]
      rw [takeWhile_host host path hsh hp, dropWhile_hostPath host path hsh hp]
  · -- relative
    replace hOq : opq = [] := hOq
    replace hS : sch = [] := hS
    replace hH : host = [] := hH
    replace hOm : omh = false := hOm
    replace hcol : ((cutAtChar '/' path).1).contains ':' = false := hcol
    replace h23 : twoSlash path = false ∨ threeSlash path = true := h23
    subst hOq
    subst hS
    subst hH
    subst hOm
    rw [urlToString_relative fq path q' frag hcol hne]
    have hcut := cutHash _ frag (hash_not_mem_front [] path q' (by simp)
      hhp hh)
    have hpf := parseNoFrag_schemeX [] path q' (by simp) rfl
      (fun c t hc => absurd hc (by simp)) hctlp hctlq hqp hne hq
      (fun _ => getScheme_relative path q' hcol hq)
    by_cases hhead : headIs '/' path = true
    · have hpaq := paq_else [] q' path hhead (by
        rcases h23 with h2 | h3
        · rw [h2]
          exact Bool.and_false _
        · rw [h3]
          rfl)
      rw [parseURL_eval _ _ frag _ hcut (hpf.trans hpaq)]
      rfl
    · have hpaq := paq_relative q' path (Bool.eq_false_iff.mpr hhead) hcol
      rw [parseURL_eval _ _ frag _ hcut (hpf.trans hpaq)]

/-! `Encode` output is safe to splice as a raw query. -/

theorem joinAmp_mem (l : List Str) :
    ∀ c ∈ joinAmp l, c = '&' ∨ ∃ x ∈ l, c ∈ x := by
  induction l with
  | nil =>
      intro c hc
      cases hc
  | cons x t ih =>
      intro c hc
      cases t with
      | nil => exact Or.inr ⟨x, List.mem_cons_self _ _, hc⟩
      | cons y r =>
          rw [show joinAmp (x :: y :: r) = x ++ '&' :: joinAmp (y :: r)
            from rfl] at hc
          rcases List.mem_append.mp hc with h | h
          · exact Or.inr ⟨x, List.mem_cons_self _ _, h⟩
          · rcases List.mem_cons.mp h with h | h
            · exact Or.inl h
            · rcases ih c h with h | ⟨z, hz, hcz⟩
              · exact Or.inl h
              · exact Or.inr ⟨z, List.mem_cons_of_mem _ hz, hcz⟩

theorem encPair_chars (p : Str × Str) (c : Char) (hc : c ∈ encPair p) :
    c = '=' ∨ (c.toNat < 128 ∧ querySafeByte c.toNat = true) := by
  unfold encPair at hc
  rcases List.mem_append.mp hc with h | h
  · exact Or.inr (queryEscape_safe _ c h)
  · rcases List.mem_cons.mp h with h | h
    · exact Or.inl h
    · exact Or.inr (queryEscape_safe _ c h)

theorem encodeQuery_chars (q : QPairs) (c : Char) (hc : c ∈ encodeQuery q) :
    c = '&' ∨ c = '=' ∨ querySafeByte c.toNat = true := by
  unfold encodeQuery at hc
  rcases joinAmp_mem _ c hc with h | ⟨x, hx, hcx⟩
  · exact Or.inl h
  · rcases List.mem_map.mp hx with ⟨p, hp, rfl⟩
    rcases encPair_chars p c hcx with h | h
    · exact Or.inr (Or.inl h)
    · exact Or.inr (Or.inr h.2)

theorem encodeQuery_qm (q : QPairs) : '?' ∉ encodeQuery q := by
  intro hm
  rcases encodeQuery_chars q '?' hm with h | h | h
  · exact absurd h (by decide)
  · exact absurd h (by decide)
  · exact absurd rfl (querySafe_ne '?' h).2.2.2.1

theorem encodeQuery_hash (q : QPairs) : '#' ∉ encodeQuery q := by
  intro hm
  rcases encodeQuery_chars q '#' hm with h | h | h
  · exact absurd h (by decide)
  · exact absurd h (by decide)
  · exact absurd rfl (querySafe_ne '#' h).2.2.2.2.1

theorem encodeQuery_ctlFree (q : QPairs) : ctlFree (encodeQuery q) = true := by
  apply ctlFree_of_all
  intro x hx
  rcases encodeQuery_chars q x hx with h | h | h
  · subst h
    decide
  · subst h
    decide
  · exact (querySafe_ne x h).2.2.2.2.2

theorem setUTM_ne_nil (q : QPairs) (f : UTMFields) : setUTM q f ≠ [] := by
  rw [setUTM_eq]
  intro hc
  have h2 := (List.append_eq_nil.mp hc).2
  unfold utmPairs at h2
  have h3 := (List.append_eq_nil.mp h2).1
  cases h3

theorem insertPair_ne_nil (x : Str × Str) (l : QPairs) :
    insertPair x l ≠ [] := by
  cases l with
  | nil => exact fun hc => by cases hc
  | cons y ys =>
      unfold insertPair
      split
      · exact fun hc => by cases hc
      · exact fun hc => by cases hc

theorem foldl_insertPair_ne_nil (l : QPairs) :
    ∀ acc : QPairs, acc ≠ [] → l.foldl (fun r x => insertPair x r) acc ≠ [] := by
  induction l with
  | nil => exact fun acc h => h
  | cons y ys ih =>
      intro acc _
      exact ih (insertPair y acc) (insertPair_ne_nil y acc)

theorem sortPairs_ne_nil (q : QPairs) (hq : q ≠ []) : sortPairs q ≠ [] := by
  cases q with
  | nil => exact absurd rfl hq
  | cons x t =>
      unfold sortPairs
      rw [List.foldl_cons]
      exact foldl_insertPair_ne_nil t (insertPair x []) (insertPair_ne_nil x [])

theorem encPair_ne_nil (p : Str × Str) : encPair p ≠ [] := by
  unfold encPair
  intro hc
  have h2 := (List.append_eq_nil.mp hc).2
  cases h2

theorem joinAmp_ne_nil (x : Str) (t : List Str) (hx : x ≠ []) :
    joinAmp (x :: t) ≠ [] := by
  cases t with
  | nil => exact hx
  | cons y r =>
      show x ++ '&' :: joinAmp (y :: r) ≠ []
      intro hc
      have h2 := (List.append_eq_nil.mp hc).2
      cases h2

theorem encodeQuery_ne_nil (q : QPairs) (hq : q ≠ []) :
    encodeQuery q ≠ [] := by
  unfold encodeQuery
  cases hsp : sortPairs q with
  | nil => exact absurd hsp (sortPairs_ne_nil q hq)
  | cons p t =>
      rw [List.map_cons]
      exact joinAmp_ne_nil _ _ (encPair_ne_nil p)

theorem urlToString_forceQuery_irrel (u : GoURL) (h : u.rawQuery ≠ []) :
    urlToString {u with forceQuery := false} = urlToString u := by
  obtain ⟨sch, opq, host, omh, fq, path, rq, frag⟩ := u
  replace h : rq ≠ [] := h
  show urlToString ⟨sch, opq, host, omh, false, path, rq, frag⟩ =
    urlToString ⟨sch, opq, host, omh, fq, path, rq, frag⟩
  simp only [urlToString]
  rw [if_pos (show (false = true) ∨ rq ≠ [] from Or.inr h),
    if_pos (show (fq = true) ∨ rq ≠ [] from Or.inr h)]

/-- C5: assembly is idempotent on its own output — whenever the stored source
URL parses and assembly with fields `f` emits the link `y`, assembling `y`
again with the same `f` succeeds and emits exactly `y`. -/
theorem c5_assemble_idempotent (s : Str) (f : UTMFields) (y : Str)
    (h : assemble s f = some y) : assemble y f = some y := by
  unfold assemble at h
  cases hp : parseURL s with
  | none =>
      rw [hp] at h
      cases h
  | some u =>
      rw [hp] at h
      simp only [Option.some.injEq] at h
      subst h
      have hrt := parse_roundtrip u (parseURL_inv s u hp)
        (encodeQuery (setUTM (parseQueryList u.rawQuery) f))
        (encodeQuery_ne_nil _ (setUTM_ne_nil _ f)) (encodeQuery_qm _)
        (encodeQuery_hash _) (encodeQuery_ctlFree _)
      unfold assemble
      rw [show urlToString (assembleStruct u f) = urlToString
          {u with rawQuery :=
            encodeQuery (setUTM (parseQueryList u.rawQuery) f)}
        from rfl]
      rw [hrt]
      show some (urlToString (assembleStruct
          {u with forceQuery := false,
                  rawQuery :=
                    encodeQuery (setUTM (parseQueryList u.rawQuery) f)} f))
        = some (urlToString
          {u with rawQuery :=
                    encodeQuery (setUTM (parseQueryList u.rawQuery) f)})
      rw [show assembleStruct
          {u with forceQuery := false,
                  rawQuery :=
                    encodeQuery (setUTM (parseQueryList u.rawQuery) f)} f
        = {u with forceQuery := false,
                  rawQuery :=
                    encodeQuery (setUTM (parseQueryList
                      (encodeQuery (setUTM (parseQueryList u.rawQuery) f)))
                      f)}
        from rfl]
      rw [encode_setUTM_stable (parseQueryList u.rawQuery) f]
      rw [show ({u with forceQuery := false,
                        rawQuery :=
                          encodeQuery (setUTM (parseQueryList u.rawQuery)
                            f)} : GoURL)
        = {({u with rawQuery :=
                      encodeQuery (setUTM (parseQueryList u.rawQuery)
                        f)} : GoURL)
            with forceQuery := false} from rfl]
      rw [urlToString_forceQuery_irrel _
        (encodeQuery_ne_nil _ (setUTM_ne_nil _ f))]

set_option maxRecDepth 100000 in
theorem c5_assemble_idempotent_witness :
    assemble (str "https://example.org/p?ref=abc") exampleFields =
      some (str "https://example.org/p?ref=abc&utm_campaign=su_kuyusu_genel&utm_content=kreatif_ismi&utm_medium=cpc&utm_source=google") ∧
    assemble (str "https://example.org/p?ref=abc&utm_campaign=su_kuyusu_genel&utm_content=kreatif_ismi&utm_medium=cpc&utm_source=google")
        exampleFields =
      some (str "https://example.org/p?ref=abc&utm_campaign=su_kuyusu_genel&utm_content=kreatif_ismi&utm_medium=cpc&utm_source=google") :=
  ⟨by decide, c5_assemble_idempotent (str "https://example.org/p?ref=abc")
    exampleFields _ (by decide)⟩
